import Mathlib

/-!
Verification development for the `operation_sequence_splitter` package:
a shallow embedding of the response parser (`splitter._parse_to_new_format`)
and of the knowledge base (`knowledge_base.KnowledgeBase`), with theorems
settling the specification claims.

Strings are embedded as `List Char` (abbreviated `Str`); Python `str.strip`
is modelled over the ASCII whitespace characters.
-/

abbrev Str := List Char

/-- Python whitespace characters recognised by `str.strip()` (ASCII subset;
the inputs of interest contain no exotic Unicode whitespace). -/
def pyIsSpace (c : Char) : Bool :=
  c = ' ' || c = '\t' || c = '\n' || c = '\r' || c = '\x0b' || c = '\x0c'

/-- Model of `str.strip()`: drop whitespace from both ends. -/
def pyStrip (l : Str) : Str :=
  ((l.dropWhile pyIsSpace).reverse.dropWhile pyIsSpace).reverse

/-- Model of `str.split(sep)` for a one-character separator, Python semantics:
`"".split(sep) = [""]`, separators at the ends produce empty pieces. -/
def splitOnChar (sep : Char) : Str → List Str
  | [] => [[]]
  | c :: rest =>
    if c = sep then [] :: splitOnChar sep rest
    else
      match splitOnChar sep rest with
      | [] => [[c]]
      | h :: t => (c :: h) :: t

/-- Model of `sep.join(parts)`. -/
def joinWith (sep : Str) : List Str → Str
  | [] => []
  | [x] => x
  | x :: y :: t => x ++ sep ++ joinWith sep (y :: t)

/-- JSON values as produced by `json.load`. -/
inductive Json where
  | null
  | bool (b : Bool)
  | num (n : Int)
  | str (s : Str)
  | arr (elems : List Json)
  | obj (fields : List (Str × Json))
deriving Repr

mutual

def Json.decEq : (a b : Json) → Decidable (a = b)
  | .null, .null => isTrue rfl
  | .null, .bool _ => isFalse (fun h => nomatch h)
  | .null, .num _ => isFalse (fun h => nomatch h)
  | .null, .str _ => isFalse (fun h => nomatch h)
  | .null, .arr _ => isFalse (fun h => nomatch h)
  | .null, .obj _ => isFalse (fun h => nomatch h)
  | .bool _, .null => isFalse (fun h => nomatch h)
  | .bool a, .bool b =>
    if h : a = b then isTrue (by rw [h]) else isFalse (fun he => h (Json.bool.inj he))
  | .bool _, .num _ => isFalse (fun h => nomatch h)
  | .bool _, .str _ => isFalse (fun h => nomatch h)
  | .bool _, .arr _ => isFalse (fun h => nomatch h)
  | .bool _, .obj _ => isFalse (fun h => nomatch h)
  | .num _, .null => isFalse (fun h => nomatch h)
  | .num _, .bool _ => isFalse (fun h => nomatch h)
  | .num a, .num b =>
    if h : a = b then isTrue (by rw [h]) else isFalse (fun he => h (Json.num.inj he))
  | .num _, .str _ => isFalse (fun h => nomatch h)
  | .num _, .arr _ => isFalse (fun h => nomatch h)
  | .num _, .obj _ => isFalse (fun h => nomatch h)
  | .str _, .null => isFalse (fun h => nomatch h)
  | .str _, .bool _ => isFalse (fun h => nomatch h)
  | .str _, .num _ => isFalse (fun h => nomatch h)
  | .str a, .str b =>
    if h : a = b then isTrue (by rw [h]) else isFalse (fun he => h (Json.str.inj he))
  | .str _, .arr _ => isFalse (fun h => nomatch h)
  | .str _, .obj _ => isFalse (fun h => nomatch h)
  | .arr _, .null => isFalse (fun h => nomatch h)
  | .arr _, .bool _ => isFalse (fun h => nomatch h)
  | .arr _, .num _ => isFalse (fun h => nomatch h)
  | .arr _, .str _ => isFalse (fun h => nomatch h)
  | .arr xs, .arr ys =>
    match Json.decEqList xs ys with
    | isTrue h => isTrue (by rw [h])
    | isFalse h => isFalse (fun he => h (Json.arr.inj he))
  | .arr _, .obj _ => isFalse (fun h => nomatch h)
  | .obj _, .null => isFalse (fun h => nomatch h)
  | .obj _, .bool _ => isFalse (fun h => nomatch h)
  | .obj _, .num _ => isFalse (fun h => nomatch h)
  | .obj _, .str _ => isFalse (fun h => nomatch h)
  | .obj _, .arr _ => isFalse (fun h => nomatch h)
  | .obj xs, .obj ys =>
    match Json.decEqFields xs ys with
    | isTrue h => isTrue (by rw [h])
    | isFalse h => isFalse (fun he => h (Json.obj.inj he))

def Json.decEqList : (xs ys : List Json) → Decidable (xs = ys)
  | [], [] => isTrue rfl
  | [], _ :: _ => isFalse (fun h => nomatch h)
  | _ :: _, [] => isFalse (fun h => nomatch h)
  | x :: xs, y :: ys =>
    match Json.decEq x y with
    | isTrue h1 =>
      match Json.decEqList xs ys with
      | isTrue h2 => isTrue (by rw [h1, h2])
      | isFalse h2 => isFalse (fun he => h2 (List.cons.inj he).2)
    | isFalse h1 => isFalse (fun he => h1 (List.cons.inj he).1)

def Json.decEqFields : (xs ys : List (Str × Json)) → Decidable (xs = ys)
  | [], [] => isTrue rfl
  | [], _ :: _ => isFalse (fun h => nomatch h)
  | _ :: _, [] => isFalse (fun h => nomatch h)
  | (k, v) :: xs, (k', v') :: ys =>
    if hk : k = k' then
      match Json.decEq v v' with
      | isTrue hv =>
        match Json.decEqFields xs ys with
        | isTrue ht => isTrue (by rw [hk, hv, ht])
        | isFalse ht => isFalse (fun he => ht (List.cons.inj he).2)
      | isFalse hv =>
        isFalse (fun he => hv (congrArg Prod.snd (List.cons.inj he).1))
    else isFalse (fun he => hk (congrArg Prod.fst (List.cons.inj he).1))

end

instance : DecidableEq Json := Json.decEq

instance : Inhabited Json := ⟨Json.null⟩

/-! ## Response parser (`splitter._parse_to_new_format`, step-extraction pass) -/

/-- One parsed substep record, as the dict appended to `substeps`
(`subtype` / `description` / `id` / `type`). -/
structure Step where
  subtype : Str
  description : Str
  id : Str
  type : Str
deriving DecidableEq, Repr

/-- Zero padding as in `f"step_\x7bstep_counter:03d\x7d"`. -/
def pad3 (n : Nat) : Str :=
  let d := (toString n).data
  if d.length < 3 then List.replicate (3 - d.length) '0' ++ d else d

/-- The `id` string `step_...` assigned to the `n`-th emitted step. -/
def stepId (n : Nat) : Str := "step_".data ++ pad3 n

/-- Mutable loop state of the parsing pass:
`substeps`, `current_description`, `step_counter`. -/
structure PState where
  substeps : List Step
  curr : List Str
  counter : Nat
deriving DecidableEq, Repr

/-- Finalizing the in-progress step: append
`{"subtype": "action", "description": " ".join(current_description).strip(),
"id": f"step_\x7bstep_counter:03d\x7d", "type": "operation"}` and reset. -/
def finalizeStep (st : PState) : PState :=
  { substeps := st.substeps ++
      [⟨"action".data, pyStrip (joinWith [' '] st.curr), stepId st.counter, "operation".data⟩],
    curr := [],
    counter := st.counter + 1 }

/-- The new-step heuristic:
`line.startswith("步骤") or line.startswith("Step") or (line and line[0].isdigit())`
(`str.isdigit` modelled on ASCII digits; `line` is non-empty here because blank
lines were skipped). -/
def isStepStart (line : Str) : Bool :=
  "步骤".data.isPrefixOf line || "Step".data.isPrefixOf line ||
    (match line with
     | c :: _ => c.isDigit
     | [] => false)

/-- Model of `line.split(":", 1)`: `some` of the text after the first colon when a colon
is present (the part before it is discarded by the parser), `none` otherwise. -/
def splitFirstColon : Str → Option Str
  | [] => none
  | c :: rest => if c = ':' then some rest else splitFirstColon rest

/-- Starting a new step from a step-start line (after the in-progress one was
saved): the initial description is the stripped text after the first colon
when a colon is present, the whole line otherwise. -/
def processStepStart (st1 : PState) (line : Str) : PState :=
  match splitFirstColon line with
  | some after => { st1 with curr := [pyStrip after] }
  | none => { st1 with curr := [line] }

/-- Processing of one stripped, non-blank line of the response. -/
def processLine (st : PState) (line : Str) : PState :=
  if isStepStart line then
    processStepStart (if st.curr ≠ [] then finalizeStep st else st) line
  else
    if st.curr ≠ [] then { st with curr := st.curr ++ [line] }
    else if st.substeps = [] then { st with curr := [line] }
    else st

/-- One iteration of the `for line in lines` loop: strip the raw line, skip it
when blank, otherwise process it. -/
def lineStep (st : PState) (raw : Str) : PState :=
  if pyStrip raw = [] then st else processLine st (pyStrip raw)

/-- Python `a or b` on strings: `a` when non-empty, else `b`. -/
def strOr (a b : Str) : Str := if a = [] then b else a

/-- State after the `for line in lines` loop over `text_result.split("\n")`
(initially `substeps = []`, `current_description = []`, `step_counter = 1`). -/
def parseLoop (text : Str) : PState :=
  (splitOnChar '\n' text).foldl lineStep ⟨[], [], 1⟩

/-- State after the trailing `if current_description:` flush of the last step. -/
def parseFlush (text : Str) : PState :=
  if (parseLoop text).curr ≠ [] then finalizeStep (parseLoop text) else parseLoop text

/-- The step-extraction pass of `_parse_to_new_format`: split the response into
lines, run the accumulator loop, flush the final step, and fall back to a
single default step (`text_result.strip() or operation_sequence`, id
`step_001`) when nothing was parsed. -/
def parseSteps (text opSeq : Str) : List Step :=
  if (parseFlush text).substeps = [] then
    [⟨"action".data, strOr (pyStrip text) opSeq, "step_001".data, "operation".data⟩]
  else (parseFlush text).substeps

/-! ## Basic lemmas about stripping, splitting and joining -/

theorem dropWhile_head_false {p : Char → Bool} {l : Str} {a : Char} {t : Str}
    (h : l.dropWhile p = a :: t) : p a = false := by
  induction l with
  | nil => simp [List.dropWhile] at h
  | cons c cs ih =>
    rw [List.dropWhile_cons] at h
    by_cases hc : p c
    · rw [if_pos hc] at h
      exact ih h
    · rw [if_neg hc] at h
      cases h
      exact Bool.eq_false_iff.mpr hc

theorem mem_of_mem_dropWhile {p : Char → Bool} {l : Str} {c : Char}
    (h : c ∈ l.dropWhile p) : c ∈ l := by
  induction l with
  | nil => simp [List.dropWhile] at h
  | cons a t ih =>
    rw [List.dropWhile_cons] at h
    by_cases ha : p a
    · rw [if_pos ha] at h
      exact List.mem_cons_of_mem a (ih h)
    · rw [if_neg ha] at h
      exact h

theorem pyStrip_eq_nil_iff (l : Str) :
    pyStrip l = [] ↔ ∀ c ∈ l, pyIsSpace c = true := by
  unfold pyStrip
  rw [List.reverse_eq_nil_iff, List.dropWhile_eq_nil_iff]
  constructor
  · intro h c hc
    have hsplit := List.takeWhile_append_dropWhile (p := pyIsSpace) (l := l)
    rw [← hsplit] at hc
    rcases List.mem_append.mp hc with h1 | h2
    · exact List.mem_takeWhile_imp h1
    · exact h c (List.mem_reverse.mpr h2)
  · intro h x hx
    exact h x (mem_of_mem_dropWhile (List.mem_reverse.mp hx))

theorem mem_of_mem_pyStrip {l : Str} {c : Char} (h : c ∈ pyStrip l) : c ∈ l := by
  unfold pyStrip at h
  rw [List.mem_reverse] at h
  have h1 := mem_of_mem_dropWhile h
  rw [List.mem_reverse] at h1
  exact mem_of_mem_dropWhile h1

/-- A non-whitespace character of `l` certifies that `pyStrip l` is non-empty. -/
def hasInk (l : Str) : Prop := ∃ c ∈ l, pyIsSpace c = false

theorem pyStrip_hasInk {l : Str} (h : pyStrip l ≠ []) : hasInk (pyStrip l) := by
  rcases hd : (l.dropWhile pyIsSpace).reverse.dropWhile pyIsSpace with _ | ⟨a, t⟩
  · exact absurd (by unfold pyStrip; rw [hd]; rfl) h
  · refine ⟨a, ?_, dropWhile_head_false hd⟩
    unfold pyStrip
    rw [hd]
    exact List.mem_reverse.mpr (List.mem_cons_self a t)

theorem pyStrip_ne_nil_of_ink {l : Str} {c : Char}
    (hc : c ∈ l) (hs : pyIsSpace c = false) : pyStrip l ≠ [] := by
  intro h
  have ht := (pyStrip_eq_nil_iff l).mp h c hc
  rw [ht] at hs
  exact Bool.noConfusion hs

theorem mem_joinWith {sep : Str} {parts : List Str} {frag : Str} {c : Char}
    (hf : frag ∈ parts) (hc : c ∈ frag) : c ∈ joinWith sep parts := by
  induction parts with
  | nil => cases hf
  | cons x xs ih =>
    cases xs with
    | nil =>
      rw [List.mem_singleton] at hf
      rw [joinWith, ← hf]
      exact hc
    | cons y t =>
      rw [joinWith]
      rcases List.mem_cons.mp hf with rfl | hmem
      · exact List.mem_append_left _ (List.mem_append_left _ hc)
      · exact List.mem_append_right _ (ih hmem)

theorem mem_of_mem_splitOnChar {sep : Char} {s : Str} :
    ∀ {l : Str} {c : Char}, l ∈ splitOnChar sep s → c ∈ l → c ∈ s := by
  induction s with
  | nil =>
    intro l c hl hc
    rw [splitOnChar, List.mem_singleton] at hl
    subst hl
    cases hc
  | cons a rest ih =>
    intro l c hl hc
    rw [splitOnChar] at hl
    by_cases ha : a = sep
    · rw [if_pos ha] at hl
      rcases List.mem_cons.mp hl with rfl | hmem
      · cases hc
      · exact List.mem_cons_of_mem a (ih hmem hc)
    · rw [if_neg ha] at hl
      rcases hr : splitOnChar sep rest with _ | ⟨h0, t0⟩
      · rw [hr, List.mem_singleton] at hl
        subst hl
        rw [List.mem_singleton] at hc
        subst hc
        exact List.mem_cons_self _ rest
      · rw [hr] at hl
        rcases List.mem_cons.mp hl with rfl | hmem
        · rcases List.mem_cons.mp hc with rfl | hmem2
          · exact List.mem_cons_self _ rest
          · have hh0 : h0 ∈ splitOnChar sep rest := by
              rw [hr]
              exact List.mem_cons_self h0 t0
            exact List.mem_cons_of_mem a (ih hh0 hmem2)
        · have hl2 : l ∈ splitOnChar sep rest := by
            rw [hr]
            exact List.mem_cons_of_mem _ hmem
          exact List.mem_cons_of_mem a (ih hl2 hc)

theorem foldl_lineStep_blank (st : PState) (lines : List Str)
    (h : ∀ l ∈ lines, pyStrip l = []) : lines.foldl lineStep st = st := by
  induction lines with
  | nil => rfl
  | cons x xs ih =>
    rw [List.foldl_cons]
    have hx : lineStep st x = st := by
      rw [lineStep, if_pos (h x (List.mem_cons_self x xs))]
    rw [hx]
    exact ih (fun l hl => h l (List.mem_cons_of_mem x hl))

/-! ## Claims C1 and C2: concrete parses -/

/-- C1: the three-line response `"步骤1: 点击登录按钮\n步骤2: 输入用户名和密码\n步骤3: 验证登录成功"`
parses to exactly three step records with ids `step_001`, `step_002`,
`step_003` in emission order and the three colon-suffix descriptions in
order, for any original operation string. -/
theorem c1_three_steps (opSeq : Str) :
    parseSteps "步骤1: 点击登录按钮\n步骤2: 输入用户名和密码\n步骤3: 验证登录成功".data opSeq =
      [⟨"action".data, "点击登录按钮".data, "step_001".data, "operation".data⟩,
       ⟨"action".data, "输入用户名和密码".data, "step_002".data, "operation".data⟩,
       ⟨"action".data, "验证登录成功".data, "step_003".data, "operation".data⟩] := rfl

/-- C2: `"步骤1: 点击登录\n需要先检查网络"` parses to exactly one step record whose
description space-joins the continuation line onto the first step's text. -/
theorem c2_continuation_line (opSeq : Str) :
    parseSteps "步骤1: 点击登录\n需要先检查网络".data opSeq =
      [⟨"action".data, "点击登录 需要先检查网络".data, "step_001".data, "operation".data⟩] := rfl

/-! ## Claim C3: whitespace-only input falls back to a single step -/

/-- C3: an input made only of whitespace characters and blank lines (including
the empty string) yields exactly one fallback step with id `step_001`; its
description is `text.strip() or operation_sequence`, which here is the
original operation string (the stripped response being empty). -/
theorem c3_blank_input_fallback (text opSeq : Str)
    (h : ∀ c ∈ text, pyIsSpace c = true) :
    parseSteps text opSeq =
      [⟨"action".data, opSeq, "step_001".data, "operation".data⟩] := by
  have hl : ∀ l ∈ splitOnChar '\n' text, pyStrip l = [] := by
    intro l hml
    rw [pyStrip_eq_nil_iff]
    intro c hc
    exact h c (mem_of_mem_splitOnChar hml hc)
  have hstrip : pyStrip text = [] := (pyStrip_eq_nil_iff text).mpr h
  have hloop : parseLoop text = ⟨[], [], 1⟩ := foldl_lineStep_blank _ _ hl
  rw [parseSteps, parseFlush, hloop]
  simp [strOr, hstrip]

/-- Witness for C3 at a concrete whitespace-only response text. -/
theorem c3_blank_input_fallback_witness :
    parseSteps "  \n\t\n".data "登录系统".data =
      [⟨"action".data, "登录系统".data, "step_001".data, "operation".data⟩] :=
  c3_blank_input_fallback "  \n\t\n".data "登录系统".data (by decide)

/-! ## Claim C4: non-emptiness of step descriptions

The source finalizes the in-progress step whenever `current_description` is a
non-empty *list* of fragments, not a non-empty joined string: a step-start
line carrying a colon with nothing after it (e.g. `"步骤1:"`) contributes the
fragment `""`, so a finalized step can have an empty description. -/

/-- C4 counterexample: on `"步骤1:\n步骤2: 点击"` the parser emits a step record
(`step_001`) whose description is the empty string, refuting the claim that
every step record has a non-empty description. -/
theorem c4_counterexample :
    ∃ s ∈ parseSteps "步骤1:\n步骤2: 点击".data "登录".data, s.description = [] := by
  decide

/-- A raw response line is colon-safe when, once stripped, it either is blank,
is not a step-start line, has no colon, or has non-whitespace text after its
first colon. -/
def colonSafe (raw : Str) : Bool :=
  if pyStrip raw = [] then true
  else if isStepStart (pyStrip raw) then
    match splitFirstColon (pyStrip raw) with
    | some after => !(pyStrip after).isEmpty
    | none => true
  else true

/-- Loop invariant for the amended C4: every emitted step has a non-empty
description, and every accumulated fragment contains non-whitespace text. -/
def descInvariant (st : PState) : Prop :=
  (∀ s ∈ st.substeps, s.description ≠ []) ∧ (∀ frag ∈ st.curr, hasInk frag)

theorem finalizeStep_descInvariant {st : PState} (hcne : st.curr ≠ [])
    (hinv : descInvariant st) : descInvariant (finalizeStep st) := by
  obtain ⟨hsub, hcur⟩ := hinv
  constructor
  · intro s hs
    rw [finalizeStep] at hs
    rcases List.mem_append.mp hs with hold | hnew
    · exact hsub s hold
    · rw [List.mem_singleton] at hnew
      subst hnew
      rcases hc : st.curr with _ | ⟨frag, rest⟩
      · exact absurd hc hcne
      · have hm : frag ∈ st.curr := by
          rw [hc]
          exact List.mem_cons_self frag rest
        obtain ⟨c, hcm, hcs⟩ := hcur frag hm
        exact pyStrip_ne_nil_of_ink
          (mem_joinWith (List.mem_cons_self frag rest) hcm) hcs
  · intro frag hf
    rw [finalizeStep] at hf
    cases hf

theorem lineStep_descInvariant {st : PState} {raw : Str}
    (hg : colonSafe raw = true) (hinv : descInvariant st) :
    descInvariant (lineStep st raw) := by
  rw [lineStep]
  by_cases hb : pyStrip raw = []
  · rw [if_pos hb]
    exact hinv
  · rw [if_neg hb]
    have hink : hasInk (pyStrip raw) := pyStrip_hasInk hb
    rw [colonSafe, if_neg hb] at hg
    rw [processLine]
    by_cases hss : isStepStart (pyStrip raw)
    · rw [if_pos hss]
      have hinv1 : descInvariant (if st.curr ≠ [] then finalizeStep st else st) := by
        by_cases hc : st.curr ≠ []
        · rw [if_pos hc]
          exact finalizeStep_descInvariant hc hinv
        · rw [if_neg hc]
          exact hinv
      rcases hsp : splitFirstColon (pyStrip raw) with _ | after
      · rw [processStepStart, hsp]
        refine ⟨hinv1.1, ?_⟩
        intro frag hf
        rw [List.mem_singleton] at hf
        subst hf
        exact hink
      · rw [processStepStart, hsp]
        rw [if_pos hss, hsp] at hg
        refine ⟨hinv1.1, ?_⟩
        intro frag hf
        rw [List.mem_singleton] at hf
        subst hf
        have hne : pyStrip after ≠ [] := by
          have hg2 : (!List.isEmpty (pyStrip after)) = true := hg
          intro he
          rw [he] at hg2
          simp at hg2
        exact pyStrip_hasInk hne
    · rw [if_neg hss]
      by_cases hc : st.curr ≠ []
      · rw [if_pos hc]
        refine ⟨hinv.1, ?_⟩
        intro frag hf
        rcases List.mem_append.mp hf with hold | hnew
        · exact hinv.2 frag hold
        · rw [List.mem_singleton] at hnew
          subst hnew
          exact hink
      · rw [if_neg hc]
        by_cases hs0 : st.substeps = []
        · rw [if_pos hs0]
          refine ⟨hinv.1, ?_⟩
          intro frag hf
          rw [List.mem_singleton] at hf
          subst hf
          exact hink
        · rw [if_neg hs0]
          exact hinv

theorem foldl_lineStep_descInvariant {st : PState} {lines : List Str}
    (hg : ∀ l ∈ lines, colonSafe l = true) (hinv : descInvariant st) :
    descInvariant (lines.foldl lineStep st) := by
  induction lines generalizing st with
  | nil => exact hinv
  | cons x xs ih =>
    rw [List.foldl_cons]
    exact ih (fun l hl => hg l (List.mem_cons_of_mem x hl))
      (lineStep_descInvariant (hg x (List.mem_cons_self x xs)) hinv)

/-- C4 amended: a step is finalized whenever its list of accumulated fragments
is non-empty, which allows an empty description exactly when a step-start line
carries a colon with only whitespace after it.  Provided every line of the
input is colon-safe and the fallback source (`text.strip() or
operation_sequence`) is non-empty, every returned step record has a non-empty
description. -/
theorem c4_amended_nonempty_descriptions (text opSeq : Str)
    (hfb : pyStrip text ≠ [] ∨ opSeq ≠ [])
    (hcol : ∀ raw ∈ splitOnChar '\n' text, colonSafe raw = true) :
    ∀ s ∈ parseSteps text opSeq, s.description ≠ [] := by
  have hloop : descInvariant (parseLoop text) :=
    foldl_lineStep_descInvariant hcol ⟨fun s hs => absurd hs (List.not_mem_nil s),
      fun f hf => absurd hf (List.not_mem_nil f)⟩
  have hflush : descInvariant (parseFlush text) := by
    rw [parseFlush]
    by_cases hc : (parseLoop text).curr ≠ []
    · rw [if_pos hc]
      exact finalizeStep_descInvariant hc hloop
    · rw [if_neg hc]
      exact hloop
  intro s hs
  rw [parseSteps] at hs
  by_cases h0 : (parseFlush text).substeps = []
  · rw [if_pos h0, List.mem_singleton] at hs
    subst hs
    show strOr (pyStrip text) opSeq ≠ []
    rw [strOr]
    by_cases ht : pyStrip text = []
    · rw [if_pos ht]
      rcases hfb with hl | hr
      · exact absurd ht hl
      · exact hr
    · rw [if_neg ht]
      exact ht
  · rw [if_neg h0] at hs
    exact hflush.1 s hs

/-- Witness for the amended C4 on a colon-safe two-line response: the single
parsed step has a non-empty description. -/
theorem c4_amended_nonempty_descriptions_witness :
    (⟨"action".data, "点击登录 验证结果".data, "step_001".data,
      "operation".data⟩ : Step).description ≠ [] :=
  c4_amended_nonempty_descriptions "步骤1: 点击登录\n验证结果".data []
    (Or.inl (by decide)) (by decide)
    ⟨"action".data, "点击登录 验证结果".data, "step_001".data, "operation".data⟩
    (by decide)

/-! ## Knowledge base (`knowledge_base.KnowledgeBase`) -/

/-- Python truthiness of a parsed JSON value. -/
def pyTruthy : Json → Bool
  | .null => false
  | .bool b => b
  | .num n => n != 0
  | .str s => !s.isEmpty
  | .arr xs => !xs.isEmpty
  | .obj fs => !fs.isEmpty

/-- Model of `dict.get(key)` on a string-keyed JSON object (keys of a parsed Python
dict are unique, so the first binding wins). -/
def lookupStr : List (Str × Json) → Str → Option Json
  | [], _ => none
  | (k, v) :: rest, q => if k = q then some v else lookupStr rest q

/-- Model of `dict.get(key, default)`. -/
def dGetD (fields : List (Str × Json)) (k : Str) (dflt : Json) : Json :=
  match lookupStr fields k with
  | some v => v
  | none => dflt

/-- Model of `d[key] = v` on a string-keyed object: replace in place when the key
exists, else append (Python dicts keep the original position on overwrite). -/
def updStr : List (Str × Json) → Str → Json → List (Str × Json)
  | [], k, v => [(k, v)]
  | (k', v') :: rest, k, v =>
    if k' = k then (k, v) :: rest else (k', v') :: updStr rest k v

/-- Lookup in one of the two top-level indexes (`self.operations`,
`self.operations_by_name`), whose keys are extracted JSON values. -/
def lookupJ : List (Json × Json) → Json → Option Json
  | [], _ => none
  | (k, v) :: rest, q => if k = q then some v else lookupJ rest q

/-- Model of `d[key] = value` on an index. -/
def updJ : List (Json × Json) → Json → Json → List (Json × Json)
  | [], k, v => [(k, v)]
  | (k', v') :: rest, k, v =>
    if k' = k then (k, v) :: rest else (k', v') :: updJ rest k v

/-- Values usable as Python dict keys; a list or dict raises
`TypeError: unhashable type`, which the loader's blanket `except` turns into
a skip of the file. -/
def hashable : Json → Bool
  | .arr _ => false
  | .obj _ => false
  | _ => true

/-- Python `a or b` where `a` is a `dict.get` result (`None` when absent). -/
def pyOrJ (a : Option Json) (b : Json) : Json :=
  match a with
  | some v => if pyTruthy v then v else b
  | none => b

/-- Model of `if not v: v = dflt`. -/
def pyNonEmptyOr (v dflt : Json) : Json := if pyTruthy v then v else dflt

def defKey : Str := "def".data

def idKey : Str := "id".data

def operationKey : Str := "operation".data

def contextKey : Str := "context".data

def sceneKey : Str := "scene".data

def substepKey : Str := "substep".data

def descriptionKey : Str := "description".data

def filenameKey : Str := "_filename".data

def filepathKey : Str := "_filepath".data

/-- One directory entry as seen by `glob`: a file name plus the result of
`json.load` on it (`none` models any open/parse failure, each caught by the
loader and skipped). -/
structure JsonFile where
  name : Str
  content : Option Json
deriving DecidableEq, Repr

/-- Model of `glob("*.json")`: keep the entries whose name matches `*.json` (pathlib's
glob is a plain fnmatch on the entry name). -/
def isJsonEntry (f : JsonFile) : Bool := ".json".data.isSuffixOf f.name

def jsonEntries (es : List JsonFile) : List JsonFile := es.filter isJsonEntry

/-- Scan for the index of the last `'.'` in a name. -/
def rfindDotAux : Str → Nat → Option Nat → Option Nat
  | [], _, acc => acc
  | c :: t, i, acc => rfindDotAux t (i + 1) (if c = '.' then some i else acc)

/-- Model of `PurePath.stem`: the final component minus its suffix; a dot at position 0
or at the very end does not begin a suffix. -/
def pyStem (n : Str) : Str :=
  match rfindDotAux n 0 none with
  | some i => if 0 < i ∧ i < n.length - 1 then n.take i else n
  | none => n

/-- In-memory knowledge base: `operations` (operation_id → document),
`operations_by_name` (operation_name → operation_id), plus the
`loaded_count` of files that loaded successfully. -/
structure KBState where
  operations : List (Json × Json)
  operations_by_name : List (Json × Json)
  loaded : Nat
deriving DecidableEq, Repr

/-- Extraction `operation_id = def_data.get("id") or operation_data.get("id") or stem`,
re-checked by `if not operation_id: operation_id = stem`. -/
def resolvedId (defFields fields : List (Str × Json)) (stem : Str) : Json :=
  pyNonEmptyOr
    (pyOrJ (lookupStr defFields idKey) (pyOrJ (lookupStr fields idKey) (.str stem)))
    (.str stem)

/-- Extraction `operation_name = def_data.get("operation") or operation_data.get("operation")
or operation_id`, re-checked by `if not operation_name: ... = operation_id`. -/
def resolvedName (defFields fields : List (Str × Json)) (oid : Json) : Json :=
  pyNonEmptyOr
    (pyOrJ (lookupStr defFields operationKey) (pyOrJ (lookupStr fields operationKey) oid))
    oid

/-- Validation and extraction for one file: the parse result must be a dict
containing a dict-typed `"def"` block, and the stored document is the parsed
dict with `_filename` and `_filepath` provenance fields inserted.  Returns
`(operation_id, operation_name, stored document)`, or `none` when the file is
to be skipped with a warning. -/
def resolveFile (dirPath : Str) (f : JsonFile) : Option (Json × Json × Json) :=
  match f.content with
  | some (.obj fields) =>
    match lookupStr fields defKey with
    | some (.obj defFields) =>
      some (resolvedId defFields fields (pyStem f.name),
            resolvedName defFields fields (resolvedId defFields fields (pyStem f.name)),
            .obj (updStr (updStr fields filenameKey (.str f.name))
                   filepathKey (.str (dirPath ++ '/' :: f.name))))
    | _ => none
  | _ => none

/-- Loading of a single file into the state.  An unhashable `operation_id`
raises before either index is touched; an unhashable `operation_name` raises
after `self.operations[operation_id]` was already assigned, so the id index is
updated but the file is not counted (the blanket `except` then skips it). -/
def processFile (dirPath : Str) (st : KBState) (f : JsonFile) : KBState :=
  match resolveFile dirPath f with
  | none => st
  | some (oid, oname, data) =>
    if hashable oid then
      if hashable oname then
        { operations := updJ st.operations oid data,
          operations_by_name := updJ st.operations_by_name oname oid,
          loaded := st.loaded + 1 }
      else { st with operations := updJ st.operations oid data }
    else st

inductive KBError where
  | fileNotFoundError
  | notADirectoryValueError
  | noJsonFilesValueError
  | noneLoadedRuntimeError
deriving DecidableEq, Repr

def emptyKB : KBState := ⟨[], [], 0⟩

def loadState (dirPath : Str) (files : List JsonFile) : KBState :=
  files.foldl (processFile dirPath) emptyKB

/-- Model of `KnowledgeBase.load`: raises when the directory holds no `*.json` entries
or when no file loads; otherwise the in-memory state results. -/
def kbLoad (dirPath : Str) (entries : List JsonFile) : Except KBError KBState :=
  if jsonEntries entries = [] then .error .noJsonFilesValueError
  else if (loadState dirPath (jsonEntries entries)).loaded = 0 then
    .error .noneLoadedRuntimeError
  else .ok (loadState dirPath (jsonEntries entries))

/-- What the constructor finds at `json_path`. -/
inductive PathNode where
  | missing
  | file
  | dir (entries : List JsonFile)
deriving DecidableEq, Repr

/-- Model of `KnowledgeBase.__init__`: existence and directory checks, then `load`. -/
def kbInit (dirPath : Str) (node : PathNode) : Except KBError KBState :=
  match node with
  | .missing => .error .fileNotFoundError
  | .file => .error .notADirectoryValueError
  | .dir entries => kbLoad dirPath entries

/-- Model of `get_operation_by_id`. -/
def getOperationById (st : KBState) (q : Json) : Option Json :=
  lookupJ st.operations q

/-- Model of `get_operation_by_name`: resolve through the name index, then — only when
the found id is truthy — through the id index. -/
def getOperationByName (st : KBState) (q : Json) : Option Json :=
  match lookupJ st.operations_by_name q with
  | some oid => if pyTruthy oid then lookupJ st.operations oid else none
  | none => none

/-- Python `a or b` on two optional documents (`None` and falsy values fall
through to `b`). -/
def pyOrOpt (a b : Option Json) : Option Json :=
  match a with
  | some v => if pyTruthy v then some v else b
  | none => b

/-- Model of `get_operation_info`: `get_operation_by_name(name) or get_operation_by_id(name)`. -/
def getOperationInfo (st : KBState) (q : Json) : Option Json :=
  pyOrOpt (getOperationByName st q) (getOperationById st q)

/-- Model of `get_operation_steps`: on a truthy resolved document with a `"def"` key,
`def_data.get("substep", [])`; otherwise `None`.  Python's `None` is a single
value, modelled here as `Json.null`, so an explicitly stored
`"substep": null` is returned as `.null` — indistinguishable from the
not-found result, exactly as in CPython.  (The two `.null`-returning
fallthrough arms for a non-dict document or a non-dict `"def"` value model
branches where CPython would raise; documents stored by `load` are always
dicts with dict-typed `"def"` blocks, so those arms are unreachable from any
loaded state.) -/
def getOperationSteps (st : KBState) (q : Json) : Json :=
  match pyOrOpt (getOperationByName st q) (getOperationById st q) with
  | some (.obj fields) =>
    if pyTruthy (.obj fields) then
      match lookupStr fields defKey with
      | some (.obj defFields) => dGetD defFields substepKey (.arr [])
      | some _ => .null
      | none => .null
    else .null
  | some _ => .null
  | none => .null

/-! ## Lemmas about the two indexes -/

theorem lookupJ_updJ_self (l : List (Json × Json)) (k v : Json) :
    lookupJ (updJ l k v) k = some v := by
  induction l with
  | nil => simp [updJ, lookupJ]
  | cons kv rest ih =>
    obtain ⟨k', v'⟩ := kv
    rw [updJ]
    by_cases hk : k' = k
    · rw [if_pos hk, lookupJ, if_pos rfl]
    · rw [if_neg hk, lookupJ, if_neg hk]
      exact ih

theorem lookupJ_updJ_ne (l : List (Json × Json)) (k v q : Json) (h : q ≠ k) :
    lookupJ (updJ l k v) q = lookupJ l q := by
  induction l with
  | nil =>
    rw [updJ, lookupJ, lookupJ, if_neg (fun he => h he.symm)]
    rfl
  | cons kv rest ih =>
    obtain ⟨k', v'⟩ := kv
    rw [updJ]
    by_cases hk : k' = k
    · rw [if_pos hk, lookupJ, lookupJ, if_neg (fun he => h he.symm)]
      subst hk
      rw [if_neg (fun he => h he.symm)]
    · rw [if_neg hk, lookupJ, lookupJ]
      by_cases hq : k' = q
      · rw [if_pos hq, if_pos hq]
      · rw [if_neg hq, if_neg hq]
        exact ih

def keysOf (l : List (Json × Json)) : List Json := l.map Prod.fst

theorem mem_keysOf_updJ {l : List (Json × Json)} {k v a : Json}
    (h : a ∈ keysOf (updJ l k v)) : a ∈ keysOf l ∨ a = k := by
  induction l with
  | nil =>
    rw [updJ, keysOf] at h
    simp at h
    exact Or.inr h
  | cons kv rest ih =>
    obtain ⟨k', v'⟩ := kv
    rw [updJ] at h
    by_cases hk : k' = k
    · rw [if_pos hk] at h
      rcases List.mem_cons.mp h with h0 | h0
      · exact Or.inr h0
      · exact Or.inl (List.mem_cons_of_mem _ h0)
    · rw [if_neg hk] at h
      rcases List.mem_cons.mp h with h0 | h0
      · exact Or.inl (by simp [keysOf, h0])
      · rcases ih h0 with h1 | h1
        · exact Or.inl (List.mem_cons_of_mem _ h1)
        · exact Or.inr h1

theorem nodup_keysOf_updJ {l : List (Json × Json)} (k v : Json)
    (h : (keysOf l).Nodup) : (keysOf (updJ l k v)).Nodup := by
  induction l with
  | nil =>
    rw [updJ]
    exact List.nodup_singleton k
  | cons kv rest ih =>
    obtain ⟨k', v'⟩ := kv
    rw [keysOf, List.map_cons, List.nodup_cons] at h
    rw [updJ]
    by_cases hk : k' = k
    · rw [if_pos hk]
      rw [keysOf, List.map_cons, List.nodup_cons]
      subst hk
      exact ⟨h.1, h.2⟩
    · rw [if_neg hk]
      rw [keysOf, List.map_cons, List.nodup_cons]
      refine ⟨?_, ih h.2⟩
      intro hmem
      rcases mem_keysOf_updJ hmem with h1 | h1
      · exact h.1 h1
      · exact hk h1

theorem filter_eq_single_of_nodup (l : List (Json × Json)) (k v : Json)
    (hnd : (keysOf l).Nodup) (hlk : lookupJ l k = some v) :
    l.filter (fun kv => decide (kv.1 = k)) = [(k, v)] := by
  induction l with
  | nil => cases hlk
  | cons kv rest ih =>
    obtain ⟨k', v'⟩ := kv
    rw [keysOf, List.map_cons, List.nodup_cons] at hnd
    rw [lookupJ] at hlk
    by_cases hk : k' = k
    · rw [if_pos hk] at hlk
      injection hlk with hv
      subst hk
      subst hv
      have hrest : rest.filter (fun kv => decide (kv.1 = k')) = [] := by
        rw [List.filter_eq_nil_iff]
        intro a ha
        simp only [decide_eq_true_eq]
        intro he
        have hm : a.1 ∈ List.map Prod.fst rest := List.mem_map_of_mem Prod.fst ha
        rw [he] at hm
        exact hnd.1 hm
      simp [List.filter_cons, hrest]
    · rw [if_neg hk] at hlk
      have hskip : ((k', v') :: rest).filter (fun kv => decide (kv.1 = k)) =
          rest.filter (fun kv => decide (kv.1 = k)) := by
        simp [List.filter_cons, hk]
      rw [hskip]
      exact ih hnd.2 hlk

theorem processFile_operations_nodup (dirPath : Str) (st : KBState) (f : JsonFile)
    (h : (keysOf st.operations).Nodup) :
    (keysOf (processFile dirPath st f).operations).Nodup := by
  rcases hr : resolveFile dirPath f with _ | ⟨oid, oname, data⟩
  · simp only [processFile, hr]
    exact h
  · simp only [processFile, hr]
    by_cases h1 : hashable oid = true
    · rw [if_pos h1]
      by_cases h2 : hashable oname = true
      · rw [if_pos h2]
        exact nodup_keysOf_updJ oid data h
      · rw [if_neg h2]
        exact nodup_keysOf_updJ oid data h
    · rw [if_neg h1]
      exact h

theorem foldl_processFile_operations_nodup (dirPath : Str) (files : List JsonFile)
    (st : KBState) (h : (keysOf st.operations).Nodup) :
    (keysOf ((files.foldl (processFile dirPath) st).operations)).Nodup := by
  induction files generalizing st with
  | nil => exact h
  | cons f rest ih =>
    rw [List.foldl_cons]
    exact ih _ (processFile_operations_nodup dirPath st f h)

theorem loadState_operations_nodup (dirPath : Str) (files : List JsonFile) :
    (keysOf (loadState dirPath files).operations).Nodup :=
  foldl_processFile_operations_nodup dirPath files emptyKB List.nodup_nil

theorem processFile_loaded_le (dirPath : Str) (st : KBState) (f : JsonFile) :
    st.loaded ≤ (processFile dirPath st f).loaded := by
  rcases hr : resolveFile dirPath f with _ | ⟨oid, oname, data⟩
  · simp only [processFile, hr]
    exact Nat.le_refl _
  · simp only [processFile, hr]
    by_cases h1 : hashable oid = true
    · rw [if_pos h1]
      by_cases h2 : hashable oname = true
      · rw [if_pos h2]
        exact Nat.le_succ _
      · rw [if_neg h2]
    · rw [if_neg h1]

theorem foldl_processFile_loaded_le (dirPath : Str) (files : List JsonFile)
    (st : KBState) : st.loaded ≤ ((files.foldl (processFile dirPath) st).loaded) := by
  induction files generalizing st with
  | nil => exact Nat.le_refl _
  | cons f rest ih =>
    rw [List.foldl_cons]
    exact Nat.le_trans (processFile_loaded_le dirPath st f) (ih _)

/-! ## Claim C5: failure conditions of the knowledge-base load -/

/-- A parse result that passes the two shape checks: a dict whose `"def"` key
holds a dict. -/
def hasDictDef : Json → Bool
  | .obj fields =>
    match lookupStr fields defKey with
    | some (.obj _) => true
    | _ => false
  | _ => false

/-- C5: knowledge-base construction fails exactly when the path is missing,
is not a directory, the directory holds no `*.json` entries, or no file loads
successfully; and a file whose parse fails or that lacks a dict-typed `"def"`
block is skipped, leaving the state unchanged (so it never by itself aborts
the load). -/
theorem c5_load_failure_characterisation :
    (∀ (dirPath : Str) (node : PathNode),
      (kbInit dirPath node).isOk = false ↔
        (node = .missing ∨ node = .file ∨
          ∃ es, node = .dir es ∧
            (jsonEntries es = [] ∨ (loadState dirPath (jsonEntries es)).loaded = 0)))
    ∧ (∀ (dirPath : Str) (st : KBState) (f : JsonFile),
        (f.content = none ∨ ∀ j, f.content = some j → hasDictDef j = false) →
        processFile dirPath st f = st) := by
  constructor
  · intro dirPath node
    cases node with
    | missing => simp [kbInit, Except.isOk, Except.toBool]
    | file => simp [kbInit, Except.isOk, Except.toBool]
    | dir es =>
      simp only [kbInit, PathNode.dir.injEq]
      rw [kbLoad]
      by_cases h1 : jsonEntries es = []
      · rw [if_pos h1]
        simp [Except.isOk, Except.toBool, h1]
      · rw [if_neg h1]
        by_cases h2 : (loadState dirPath (jsonEntries es)).loaded = 0
        · rw [if_pos h2]
          simp [Except.isOk, Except.toBool, h2]
        · rw [if_neg h2]
          simp [Except.isOk, Except.toBool, h1, h2]
  · intro dirPath st f hskip
    have hres : resolveFile dirPath f = none := by
      rcases hc : f.content with _ | j
      · rw [resolveFile, hc]
      · rcases hskip with hnone | hbad
        · rw [hc] at hnone
          cases hnone
        · have hb := hbad j hc
          cases j with
          | obj fields =>
            rw [hasDictDef] at hb
            simp only [resolveFile, hc]
            rcases hd : lookupStr fields defKey with _ | dv
            · simp [hd]
            · rw [hd] at hb
              cases dv with
              | obj defFields => simp at hb
              | null => simp [hd]
              | bool b => simp [hd]
              | num n => simp [hd]
              | str s => simp [hd]
              | arr xs => simp [hd]
          | null => rw [resolveFile, hc]
          | bool b => rw [resolveFile, hc]
          | num n => rw [resolveFile, hc]
          | str s => rw [resolveFile, hc]
          | arr xs => rw [resolveFile, hc]
    simp only [processFile, hres]

/-- Witness for C5: a missing path fails, and a file with a parse error is
skipped without any state change. -/
theorem c5_load_failure_characterisation_witness :
    (kbInit "kb".data .missing).isOk = false ∧
      processFile "kb".data emptyKB ⟨"bad.json".data, none⟩ = emptyKB :=
  ⟨(c5_load_failure_characterisation.1 "kb".data .missing).mpr (Or.inl rfl),
   c5_load_failure_characterisation.2 "kb".data emptyKB ⟨"bad.json".data, none⟩
     (Or.inl rfl)⟩

/-! ## Claim C6: duplicate operation ids, last write wins -/

/-- Whether loading file `f` writes the id index under key `oid`. -/
def writesIdB (dirPath : Str) (f : JsonFile) (oid : Json) : Bool :=
  match resolveFile dirPath f with
  | some (oid2, _, _) => hashable oid2 && decide (oid2 = oid)
  | none => false

theorem processFile_writes (dirPath : Str) (st : KBState) (f : JsonFile)
    (oid oname data : Json) (hres : resolveFile dirPath f = some (oid, oname, data))
    (hid : hashable oid = true) :
    lookupJ (processFile dirPath st f).operations oid = some data := by
  simp only [processFile, hres]
  rw [if_pos hid]
  by_cases h2 : hashable oname = true
  · rw [if_pos h2]
    exact lookupJ_updJ_self _ _ _
  · rw [if_neg h2]
    exact lookupJ_updJ_self _ _ _

theorem processFile_loaded_succ (dirPath : Str) (st : KBState) (f : JsonFile)
    (oid oname data : Json) (hres : resolveFile dirPath f = some (oid, oname, data))
    (hid : hashable oid = true) (hname : hashable oname = true) :
    (processFile dirPath st f).loaded = st.loaded + 1 := by
  simp only [processFile, hres]
  rw [if_pos hid, if_pos hname]

theorem processFile_preserves_lookup (dirPath : Str) (st : KBState) (f : JsonFile)
    (oid : Json) (h : writesIdB dirPath f oid = false) :
    lookupJ (processFile dirPath st f).operations oid = lookupJ st.operations oid := by
  rcases hr : resolveFile dirPath f with _ | ⟨oid2, nm2, d2⟩
  · simp only [processFile, hr]
  · simp only [writesIdB, hr] at h
    simp only [processFile, hr]
    by_cases h1 : hashable oid2 = true
    · have hne : oid ≠ oid2 := by
        intro he
        rw [h1] at h
        simp [he] at h
      rw [if_pos h1]
      by_cases h2 : hashable nm2 = true
      · rw [if_pos h2]
        exact lookupJ_updJ_ne _ _ _ _ hne
      · rw [if_neg h2]
        exact lookupJ_updJ_ne _ _ _ _ hne
    · rw [if_neg h1]

theorem foldl_processFile_preserves_lookup (dirPath : Str) (files : List JsonFile)
    (st : KBState) (oid : Json) (h : ∀ g ∈ files, writesIdB dirPath g oid = false) :
    lookupJ ((files.foldl (processFile dirPath) st).operations) oid =
      lookupJ st.operations oid := by
  induction files generalizing st with
  | nil => rfl
  | cons g rest ih =>
    rw [List.foldl_cons]
    rw [ih _ (fun g2 hg2 => h g2 (List.mem_cons_of_mem g hg2))]
    exact processFile_preserves_lookup dirPath st g oid (h g (List.mem_cons_self g rest))

theorem jsonEntries_append_cons (es1 es2 : List JsonFile) (f : JsonFile)
    (hf : isJsonEntry f = true) :
    jsonEntries (es1 ++ f :: es2) = jsonEntries es1 ++ f :: jsonEntries es2 := by
  rw [jsonEntries, List.filter_append, List.filter_cons, if_pos hf]
  rfl

/-- C6: when a file `f` that stores its document under `oid` is followed (in
directory-listing order) only by files that do not write the id index under
`oid`, a knowledge base loaded from any directory containing it succeeds
(silently, despite any earlier file having used the same id), and the id
index afterwards holds exactly one entry under `oid` — the document of `f`,
the last writer; any earlier document under `oid` is no longer reachable. -/
theorem c6_duplicate_id_last_wins (dirPath : Str) (es1 es2 : List JsonFile)
    (f : JsonFile) (oid oname data : Json)
    (hjson : isJsonEntry f = true)
    (hres : resolveFile dirPath f = some (oid, oname, data))
    (hid : hashable oid = true) (hname : hashable oname = true)
    (hlater : ∀ g ∈ es2, writesIdB dirPath g oid = false) :
    ∃ st, kbInit dirPath (.dir (es1 ++ f :: es2)) = .ok st ∧
      lookupJ st.operations oid = some data ∧
      st.operations.filter (fun kv => decide (kv.1 = oid)) = [(oid, data)] := by
  have hsplit := jsonEntries_append_cons es1 es2 f hjson
  have hdecomp : loadState dirPath (jsonEntries (es1 ++ f :: es2)) =
      (jsonEntries es2).foldl (processFile dirPath)
        (processFile dirPath (loadState dirPath (jsonEntries es1)) f) := by
    rw [loadState, hsplit, List.foldl_append, List.foldl_cons]
    rfl
  have hlater2 : ∀ g ∈ jsonEntries es2, writesIdB dirPath g oid = false := by
    intro g hg
    exact hlater g (List.mem_of_mem_filter hg)
  have hlk : lookupJ ((jsonEntries es2).foldl (processFile dirPath)
      (processFile dirPath (loadState dirPath (jsonEntries es1)) f)).operations oid =
      some data := by
    rw [foldl_processFile_preserves_lookup dirPath (jsonEntries es2) _ oid hlater2]
    exact processFile_writes dirPath _ f oid oname data hres hid
  have hloaded : ((jsonEntries es2).foldl (processFile dirPath)
      (processFile dirPath (loadState dirPath (jsonEntries es1)) f)).loaded ≠ 0 := by
    have h1 := processFile_loaded_succ dirPath (loadState dirPath (jsonEntries es1))
      f oid oname data hres hid hname
    have h2 := foldl_processFile_loaded_le dirPath (jsonEntries es2)
      (processFile dirPath (loadState dirPath (jsonEntries es1)) f)
    omega
  have hne : jsonEntries (es1 ++ f :: es2) ≠ [] := by
    rw [hsplit]
    intro he
    exact absurd (List.append_eq_nil.mp he).2 (List.cons_ne_nil f (jsonEntries es2))
  have hnodup : (keysOf ((jsonEntries es2).foldl (processFile dirPath)
      (processFile dirPath (loadState dirPath (jsonEntries es1)) f)).operations).Nodup :=
    foldl_processFile_operations_nodup dirPath _ _
      (processFile_operations_nodup dirPath _ f (loadState_operations_nodup dirPath _))
  refine ⟨_, ?_, hlk, filter_eq_single_of_nodup _ oid data hnodup hlk⟩
  show kbLoad dirPath (es1 ++ f :: es2) = _
  rw [kbLoad, if_neg hne, hdecomp, if_neg hloaded]

/-- Witness for C6: two files with the same `def.id` `"login"`; the second
file's document wins and is the only entry under `"login"`. -/
theorem c6_duplicate_id_last_wins_witness :
    ∃ st, kbInit "kb".data
        (.dir [⟨"a.json".data, some (.obj [(defKey,
            .obj [(idKey, .str "login".data), (operationKey, .str "旧登录".data)])])⟩,
          ⟨"b.json".data, some (.obj [(defKey,
            .obj [(idKey, .str "login".data), (operationKey, .str "新登录".data)])])⟩]) = .ok st ∧
      lookupJ st.operations (.str "login".data) =
        some (.obj [(defKey, .obj [(idKey, .str "login".data),
            (operationKey, .str "新登录".data)]),
          (filenameKey, .str "b.json".data),
          (filepathKey, .str "kb/b.json".data)]) ∧
      st.operations.filter (fun kv => decide (kv.1 = .str "login".data)) =
        [(.str "login".data,
          .obj [(defKey, .obj [(idKey, .str "login".data),
              (operationKey, .str "新登录".data)]),
            (filenameKey, .str "b.json".data),
            (filepathKey, .str "kb/b.json".data)])] :=
  c6_duplicate_id_last_wins "kb".data
    [⟨"a.json".data, some (.obj [(defKey,
        .obj [(idKey, .str "login".data), (operationKey, .str "旧登录".data)])])⟩]
    []
    ⟨"b.json".data, some (.obj [(defKey,
        .obj [(idKey, .str "login".data), (operationKey, .str "新登录".data)])])⟩
    (.str "login".data) (.str "新登录".data)
    (.obj [(defKey, .obj [(idKey, .str "login".data),
        (operationKey, .str "新登录".data)]),
      (filenameKey, .str "b.json".data),
      (filepathKey, .str "kb/b.json".data)])
    (by decide) (by decide) (by decide) (by decide)
    (by intro g hg; cases hg)

/-! ## Claim C9: name index consistency -/

theorem rfindDotAux_append (l1 l2 : Str) (i : Nat) (a : Option Nat) :
    rfindDotAux (l1 ++ l2) i a = rfindDotAux l2 (i + l1.length) (rfindDotAux l1 i a) := by
  induction l1 generalizing i a with
  | nil => simp [rfindDotAux]
  | cons c t ih =>
    rw [List.cons_append, rfindDotAux, ih, rfindDotAux]
    have hlen : i + 1 + t.length = i + (c :: t).length := by
      rw [List.length_cons]
      omega
    rw [hlen]

theorem rfindDotAux_json (k : Nat) (a : Option Nat) :
    rfindDotAux "json".data k a = a := rfl

theorem rfindDotAux_dotjson (k : Nat) (a : Option Nat) :
    rfindDotAux ".json".data k a = some k := by
  have h : ".json".data = '.' :: "json".data := rfl
  rw [h, rfindDotAux, rfindDotAux_json]
  simp

/-- The stem of a `*.json` entry name is never empty: either the name is
exactly `".json"` (no suffix recognised, the stem is the name itself) or the
prefix before `".json"` is non-empty. -/
theorem pyStem_ne_nil_of_json (n : Str) (h : ".json".data.isSuffixOf n = true) :
    pyStem n ≠ [] := by
  obtain ⟨pre, hpre⟩ := List.isSuffixOf_iff_suffix.mp h
  subst hpre
  have hfind : rfindDotAux (pre ++ ".json".data) 0 none = some pre.length := by
    rw [rfindDotAux_append, rfindDotAux_dotjson, Nat.zero_add]
  rw [pyStem, hfind]
  show (if 0 < pre.length ∧ pre.length < (pre ++ ".json".data).length - 1
    then List.take pre.length (pre ++ ".json".data) else pre ++ ".json".data) ≠ []
  by_cases hp : 0 < pre.length ∧ pre.length < (pre ++ ".json".data).length - 1
  · rw [if_pos hp]
    rw [List.take_left]
    intro he
    rw [he] at hp
    simp at hp
  · rw [if_neg hp]
    simp

theorem pyTruthy_str_ne_nil {s : Str} (h : s ≠ []) : pyTruthy (.str s) = true := by
  cases s with
  | nil => exact absurd rfl h
  | cons c t => rfl

theorem resolvedId_truthy (defFields fields : List (Str × Json)) (stem : Str)
    (h : stem ≠ []) : pyTruthy (resolvedId defFields fields stem) = true := by
  rw [resolvedId, pyNonEmptyOr]
  by_cases hv : pyTruthy (pyOrJ (lookupStr defFields idKey)
      (pyOrJ (lookupStr fields idKey) (.str stem))) = true
  · rw [if_pos hv]
    exact hv
  · rw [if_neg hv]
    exact pyTruthy_str_ne_nil h

theorem resolveFile_id_truthy (dirPath : Str) (f : JsonFile) (oid oname data : Json)
    (hjson : isJsonEntry f = true)
    (hres : resolveFile dirPath f = some (oid, oname, data)) :
    pyTruthy oid = true := by
  rcases hcf : f.content with _ | j
  · simp [resolveFile, hcf] at hres
  · cases j with
    | obj fields =>
      simp only [resolveFile, hcf] at hres
      rcases hd : lookupStr fields defKey with _ | dv
      · rw [hd] at hres
        cases hres
      · rw [hd] at hres
        cases dv with
        | obj defFields =>
          injection hres with h1
          have hoid : resolvedId defFields fields (pyStem f.name) = oid :=
            congrArg Prod.fst h1
          rw [← hoid]
          exact resolvedId_truthy _ _ _ (pyStem_ne_nil_of_json f.name hjson)
        | null => cases hres
        | bool b => cases hres
        | num m => cases hres
        | str s => cases hres
        | arr xs => cases hres
    | null => simp [resolveFile, hcf] at hres
    | bool b => simp [resolveFile, hcf] at hres
    | num m => simp [resolveFile, hcf] at hres
    | str s => simp [resolveFile, hcf] at hres
    | arr xs => simp [resolveFile, hcf] at hres

/-- Invariant: every id stored as a value of the name index is truthy and is a
key of the id index. -/
def nameIndexInvariant (st : KBState) : Prop :=
  ∀ n oid, lookupJ st.operations_by_name n = some oid →
    pyTruthy oid = true ∧ ∃ d, lookupJ st.operations oid = some d

theorem processFile_nameIndexInvariant (dirPath : Str) (st : KBState) (f : JsonFile)
    (hjson : isJsonEntry f = true) (hinv : nameIndexInvariant st) :
    nameIndexInvariant (processFile dirPath st f) := by
  rcases hr : resolveFile dirPath f with _ | ⟨oid, oname, data⟩
  · simp only [processFile, hr]
    exact hinv
  · simp only [processFile, hr]
    have htr : pyTruthy oid = true := resolveFile_id_truthy dirPath f oid oname data hjson hr
    by_cases h1 : hashable oid = true
    · rw [if_pos h1]
      by_cases h2 : hashable oname = true
      · rw [if_pos h2]
        intro n oid2 hlk
        by_cases hn : n = oname
        · subst hn
          rw [lookupJ_updJ_self] at hlk
          injection hlk with h3
          subst h3
          exact ⟨htr, data, lookupJ_updJ_self _ _ _⟩
        · rw [lookupJ_updJ_ne _ _ _ _ hn] at hlk
          obtain ⟨ht2, d2, hd2⟩ := hinv n oid2 hlk
          refine ⟨ht2, ?_⟩
          by_cases ho : oid2 = oid
          · subst ho
            exact ⟨data, lookupJ_updJ_self _ _ _⟩
          · refine ⟨d2, ?_⟩
            rw [lookupJ_updJ_ne _ _ _ _ ho]
            exact hd2
      · rw [if_neg h2]
        intro n oid2 hlk
        obtain ⟨ht2, d2, hd2⟩ := hinv n oid2 hlk
        refine ⟨ht2, ?_⟩
        by_cases ho : oid2 = oid
        · subst ho
          exact ⟨data, lookupJ_updJ_self _ _ _⟩
        · refine ⟨d2, ?_⟩
          rw [lookupJ_updJ_ne _ _ _ _ ho]
          exact hd2
    · rw [if_neg h1]
      exact hinv

theorem foldl_processFile_nameIndexInvariant (dirPath : Str) (files : List JsonFile)
    (st : KBState) (hall : ∀ g ∈ files, isJsonEntry g = true)
    (hinv : nameIndexInvariant st) :
    nameIndexInvariant (files.foldl (processFile dirPath) st) := by
  induction files generalizing st with
  | nil => exact hinv
  | cons g rest ih =>
    rw [List.foldl_cons]
    exact ih _ (fun g2 hg2 => hall g2 (List.mem_cons_of_mem g hg2))
      (processFile_nameIndexInvariant dirPath st g (hall g (List.mem_cons_self g rest)) hinv)

theorem loadState_nameIndexInvariant (dirPath : Str) (es : List JsonFile) :
    nameIndexInvariant (loadState dirPath (jsonEntries es)) := by
  refine foldl_processFile_nameIndexInvariant dirPath (jsonEntries es) emptyKB
    (fun g hg => List.of_mem_filter hg) ?_
  intro n oid hlk
  cases hlk

/-- The function `kbInit` succeeds only on a directory, and the state is the loaded one. -/
theorem kbInit_ok_inv (dirPath : Str) (node : PathNode) (st : KBState)
    (h : kbInit dirPath node = .ok st) :
    ∃ es, node = .dir es ∧ st = loadState dirPath (jsonEntries es) := by
  cases node with
  | missing => cases h
  | file => cases h
  | dir es =>
    refine ⟨es, rfl, ?_⟩
    rw [kbInit, kbLoad] at h
    by_cases h1 : jsonEntries es = []
    · rw [if_pos h1] at h
      cases h
    · rw [if_neg h1] at h
      by_cases h2 : (loadState dirPath (jsonEntries es)).loaded = 0
      · rw [if_pos h2] at h
        cases h
      · rw [if_neg h2] at h
        injection h with h3
        exact h3.symm

/-- C9: after every successful load, every id stored in the name index
resolves through the id index, so fetch-by-name on an indexed name returns a
document; and when a file `f` reuses the id that an earlier name `n1` maps to,
under a different name, `n1` still resolves afterwards and now yields `f`'s
document (whose own operation name `oname` differs from `n1`). -/
theorem c9_name_index_consistency :
    (∀ (dirPath : Str) (node : PathNode) (st : KBState) (n oid : Json),
      kbInit dirPath node = .ok st →
      lookupJ st.operations_by_name n = some oid →
      ∃ d, getOperationByName st n = some d)
    ∧ (∀ (dirPath : Str) (st : KBState) (f : JsonFile) (oid oname data n1 : Json),
        resolveFile dirPath f = some (oid, oname, data) →
        hashable oid = true → hashable oname = true →
        pyTruthy oid = true →
        lookupJ st.operations_by_name n1 = some oid →
        n1 ≠ oname →
        getOperationByName (processFile dirPath st f) n1 = some data) := by
  constructor
  · intro dirPath node st n oid hok hlk
    obtain ⟨es, hnode, hst⟩ := kbInit_ok_inv dirPath node st hok
    subst hst
    obtain ⟨htr, d, hd⟩ := loadState_nameIndexInvariant dirPath es n oid hlk
    refine ⟨d, ?_⟩
    simp only [getOperationByName, hlk]
    rw [if_pos htr]
    exact hd
  · intro dirPath st f oid oname data n1 hres hid hname htr hlk hne
    simp only [processFile, hres]
    rw [if_pos hid, if_pos hname]
    simp only [getOperationByName]
    rw [lookupJ_updJ_ne _ _ _ _ hne, hlk]
    show (if pyTruthy oid = true then lookupJ (updJ st.operations oid data) oid
      else none) = some data
    rw [if_pos htr]
    exact lookupJ_updJ_self _ _ _

/-- Witness for C9 at a one-file directory and at an explicit prior state
whose name index maps `"旧名"` to the id reused by the new file. -/
theorem c9_name_index_consistency_witness :
    (∃ d, getOperationByName
        (loadState "kb".data (jsonEntries [⟨"a.json".data, some (.obj [(defKey,
          .obj [(idKey, .str "login".data), (operationKey, .str "登录系统".data)])])⟩]))
        (.str "登录系统".data) = some d)
    ∧ getOperationByName
        (processFile "kb".data
          ⟨[((Json.str "login".data), Json.null)],
           [((Json.str "旧名".data), Json.str "login".data)], 1⟩
          ⟨"b.json".data, some (.obj [(defKey,
            .obj [(idKey, .str "login".data), (operationKey, .str "新名".data)])])⟩)
        (.str "旧名".data) =
      some (.obj [(defKey, .obj [(idKey, .str "login".data),
          (operationKey, .str "新名".data)]),
        (filenameKey, .str "b.json".data),
        (filepathKey, .str "kb/b.json".data)]) :=
  ⟨c9_name_index_consistency.1 "kb".data
      (.dir [⟨"a.json".data, some (.obj [(defKey,
        .obj [(idKey, .str "login".data), (operationKey, .str "登录系统".data)])])⟩])
      (loadState "kb".data (jsonEntries [⟨"a.json".data, some (.obj [(defKey,
        .obj [(idKey, .str "login".data), (operationKey, .str "登录系统".data)])])⟩]))
      (.str "登录系统".data) (.str "login".data) rfl (by decide),
   c9_name_index_consistency.2 "kb".data
      ⟨[((Json.str "login".data), Json.null)],
       [((Json.str "旧名".data), Json.str "login".data)], 1⟩
      ⟨"b.json".data, some (.obj [(defKey,
        .obj [(idKey, .str "login".data), (operationKey, .str "新名".data)])])⟩
      (.str "login".data) (.str "新名".data)
      (.obj [(defKey, .obj [(idKey, .str "login".data),
          (operationKey, .str "新名".data)]),
        (filenameKey, .str "b.json".data),
        (filepathKey, .str "kb/b.json".data)])
      (.str "旧名".data)
      (by decide) (by decide) (by decide) (by decide) (by decide) (by decide)⟩

/-! ## Claim C10: steps lookup returns None exactly on unresolved names -/

theorem lookupStr_updStr_ne (l : List (Str × Json)) (k : Str) (v : Json) (q : Str)
    (h : q ≠ k) : lookupStr (updStr l k v) q = lookupStr l q := by
  induction l with
  | nil =>
    rw [updStr, lookupStr, lookupStr, if_neg (fun he => h he.symm)]
    rfl
  | cons kv rest ih =>
    obtain ⟨k', v'⟩ := kv
    rw [updStr]
    by_cases hk : k' = k
    · rw [if_pos hk, lookupStr, lookupStr, if_neg (fun he => h he.symm)]
      subst hk
      rw [if_neg (fun he => h he.symm)]
    · rw [if_neg hk, lookupStr, lookupStr]
      by_cases hq : k' = q
      · rw [if_pos hq, if_pos hq]
      · rw [if_neg hq, if_neg hq]
        exact ih

theorem lookupStr_ne_nil {l : List (Str × Json)} {k : Str} {v : Json}
    (h : lookupStr l k = some v) : l ≠ [] := by
  intro he
  rw [he] at h
  cases h

/-- Invariant: every document stored in the id index is a dict whose `"def"`
key holds a dict. -/
def storedShapeInvariant (st : KBState) : Prop :=
  ∀ k d, lookupJ st.operations k = some d →
    ∃ fields, d = .obj fields ∧
      ∃ defFields, lookupStr fields defKey = some (.obj defFields)

theorem resolveFile_data_shape (dirPath : Str) (f : JsonFile) (oid oname data : Json)
    (hres : resolveFile dirPath f = some (oid, oname, data)) :
    ∃ fields, data = .obj fields ∧
      ∃ defFields, lookupStr fields defKey = some (.obj defFields) := by
  rcases hcf : f.content with _ | j
  · simp [resolveFile, hcf] at hres
  · cases j with
    | obj fields =>
      simp only [resolveFile, hcf] at hres
      rcases hd : lookupStr fields defKey with _ | dv
      · rw [hd] at hres
        cases hres
      · rw [hd] at hres
        cases dv with
        | obj defFields =>
          injection hres with h1
          have hdata : Json.obj (updStr (updStr fields filenameKey (.str f.name))
              filepathKey (.str (dirPath ++ '/' :: f.name))) = data :=
            congrArg (fun t => t.2.2) h1
          refine ⟨updStr (updStr fields filenameKey (.str f.name))
              filepathKey (.str (dirPath ++ '/' :: f.name)), hdata.symm, defFields, ?_⟩
          rw [lookupStr_updStr_ne _ _ _ _ (by decide),
            lookupStr_updStr_ne _ _ _ _ (by decide)]
          exact hd
        | null => cases hres
        | bool b => cases hres
        | num m => cases hres
        | str s => cases hres
        | arr xs => cases hres
    | null => simp [resolveFile, hcf] at hres
    | bool b => simp [resolveFile, hcf] at hres
    | num m => simp [resolveFile, hcf] at hres
    | str s => simp [resolveFile, hcf] at hres
    | arr xs => simp [resolveFile, hcf] at hres

theorem processFile_storedShapeInvariant (dirPath : Str) (st : KBState) (f : JsonFile)
    (hinv : storedShapeInvariant st) :
    storedShapeInvariant (processFile dirPath st f) := by
  rcases hr : resolveFile dirPath f with _ | ⟨oid, oname, data⟩
  · simp only [processFile, hr]
    exact hinv
  · simp only [processFile, hr]
    have hshape := resolveFile_data_shape dirPath f oid oname data hr
    have hupd : storedShapeInvariant
        { st with operations := updJ st.operations oid data } := by
      intro k d hlk
      by_cases hk : k = oid
      · subst hk
        rw [lookupJ_updJ_self] at hlk
        injection hlk with h2
        subst h2
        exact hshape
      · rw [lookupJ_updJ_ne _ _ _ _ hk] at hlk
        exact hinv k d hlk
    by_cases h1 : hashable oid = true
    · rw [if_pos h1]
      by_cases h2 : hashable oname = true
      · rw [if_pos h2]
        intro k d hlk
        exact hupd k d hlk
      · rw [if_neg h2]
        exact hupd
    · rw [if_neg h1]
      exact hinv

theorem loadState_storedShapeInvariant (dirPath : Str) (files : List JsonFile) :
    storedShapeInvariant (loadState dirPath files) := by
  rw [loadState]
  have hgen : ∀ (fs : List JsonFile) (st : KBState), storedShapeInvariant st →
      storedShapeInvariant (fs.foldl (processFile dirPath) st) := by
    intro fs
    induction fs with
    | nil => exact fun st h => h
    | cons g rest ih =>
      intro st h
      rw [List.foldl_cons]
      exact ih _ (processFile_storedShapeInvariant dirPath st g h)
  refine hgen files emptyKB ?_
  intro k d hlk
  cases hlk

theorem getOperationByName_mem (st : KBState) (q v : Json)
    (h : getOperationByName st q = some v) :
    ∃ k, lookupJ st.operations k = some v := by
  rcases hb : lookupJ st.operations_by_name q with _ | oid
  · simp only [getOperationByName, hb] at h
    exact Option.noConfusion h
  · simp only [getOperationByName, hb] at h
    by_cases ht : pyTruthy oid = true
    · rw [if_pos ht] at h
      exact ⟨oid, h⟩
    · rw [if_neg ht] at h
      cases h

theorem getOperationInfo_mem (st : KBState) (q v : Json)
    (h : getOperationInfo st q = some v) :
    ∃ k, lookupJ st.operations k = some v := by
  rw [getOperationInfo] at h
  rcases hb : getOperationByName st q with _ | w
  · rw [hb] at h
    exact ⟨q, h⟩
  · rw [hb] at h
    simp only [pyOrOpt] at h
    by_cases ht : pyTruthy w = true
    · rw [if_pos ht] at h
      injection h with h2
      exact h2 ▸ getOperationByName_mem st q w hb
    · rw [if_neg ht] at h
      exact ⟨q, h⟩

/-- The single-file directory whose record stores `"substep": null`. -/
def nullSubstepFile : JsonFile :=
  ⟨"nullsub.json".data, some (.obj [(defKey, .obj
    [(idKey, .str "nullsub".data), (operationKey, .str "空步骤".data),
     (substepKey, .null)])])⟩

/-- C10 counterexample: in the knowledge base loaded from `nullSubstepFile`,
the name-or-id `"nullsub"` resolves to a record (`get_operation_info` is not
`None`), yet `get_operation_steps` returns `None`: the record's `"def"` block
stores `null` under `"substep"`, and `def_data.get("substep", [])` hands that
stored `None` back — refuting "returns None exactly when the name-or-id
resolves to no loaded record". -/
theorem c10_counterexample :
    getOperationSteps (loadState "kb".data (jsonEntries [nullSubstepFile]))
        (.str "nullsub".data) = .null
    ∧ getOperationInfo (loadState "kb".data (jsonEntries [nullSubstepFile]))
        (.str "nullsub".data) ≠ none := by
  constructor
  · rfl
  · decide

/-- C10 amended: against any successfully loaded knowledge base,
`get_operation_steps` returns `None` exactly when the queried name-or-id
resolves to no record (`get_operation_info` returns `None`) or the resolved
record's `"def"` block explicitly stores `null` under `"substep"`; and when
the resolved record's `"def"` block has no `"substep"` key at all, the result
is the empty list, not `None`. -/
theorem c10_amended_steps_null_characterisation (dirPath : Str) (node : PathNode)
    (st : KBState) (q : Json) (hok : kbInit dirPath node = .ok st) :
    (getOperationSteps st q = .null ↔
      (getOperationInfo st q = none ∨
        ∃ fields defFields, getOperationInfo st q = some (.obj fields) ∧
          lookupStr fields defKey = some (.obj defFields) ∧
          lookupStr defFields substepKey = some .null))
    ∧ (∀ fields defFields, getOperationInfo st q = some (.obj fields) →
        lookupStr fields defKey = some (.obj defFields) →
        lookupStr defFields substepKey = none →
        getOperationSteps st q = .arr []) := by
  obtain ⟨es, hnode, hst⟩ := kbInit_ok_inv dirPath node st hok
  have hshape : storedShapeInvariant st := by
    rw [hst]
    exact loadState_storedShapeInvariant dirPath (jsonEntries es)
  constructor
  · rcases hi : getOperationInfo st q with _ | v
    · constructor
      · intro _
        exact Or.inl rfl
      · intro _
        simp only [getOperationSteps,
          show pyOrOpt (getOperationByName st q) (getOperationById st q) = none from hi]
    · obtain ⟨k, hk⟩ := getOperationInfo_mem st q v hi
      obtain ⟨fields, hv, defFields, hdef⟩ := hshape k v hk
      subst hv
      have htr : pyTruthy (Json.obj fields) = true := by
        rcases hf : fields with _ | ⟨p, rest⟩
        · rw [hf] at hdef
          cases hdef
        · rfl
      have hsteps : getOperationSteps st q = dGetD defFields substepKey (.arr []) := by
        simp only [getOperationSteps,
          show pyOrOpt (getOperationByName st q) (getOperationById st q) =
            some (Json.obj fields) from hi]
        rw [if_pos htr, hdef]
      constructor
      · intro hnull
        rw [hsteps] at hnull
        rcases hsub : lookupStr defFields substepKey with _ | w
        · rw [dGetD, hsub] at hnull
          cases hnull
        · rw [dGetD, hsub] at hnull
          have hw : w = Json.null := hnull
          exact Or.inr ⟨fields, defFields, rfl, hdef, by rw [hsub, hw]⟩
      · intro hcase
        rcases hcase with hnone | ⟨fields2, defFields2, hi2, hdef2, hsub2⟩
        · cases hnone
        · injection hi2 with hv2
          have hfields : fields2 = fields := Json.obj.inj hv2.symm
          subst hfields
          rw [hdef] at hdef2
          injection hdef2 with hd2
          have hdf : defFields2 = defFields := Json.obj.inj hd2.symm
          subst hdf
          rw [hsteps, dGetD, hsub2]
  · intro fields defFields hi hdef hsub
    have htr : pyTruthy (Json.obj fields) = true := by
      rcases hf : fields with _ | ⟨p, rest⟩
      · rw [hf] at hdef
        cases hdef
      · rfl
    simp only [getOperationSteps,
      show pyOrOpt (getOperationByName st q) (getOperationById st q) =
        some (Json.obj fields) from hi]
    rw [if_pos htr, hdef]
    simp only [dGetD, hsub]

/-- The single-file directory whose record's `def` block has no `"substep"`
key at all. -/
def noSubstepFile : JsonFile :=
  ⟨"login.json".data, some (.obj [(defKey, .obj
    [(idKey, .str "login".data), (operationKey, .str "登录系统".data)])])⟩

/-- Witness for the amended C10: the null-substep base realises the stored-null
arm of the characterisation, and the login record (whose `def` lacks
`"substep"`) yields the empty list. -/
theorem c10_amended_steps_null_characterisation_witness :
    ((getOperationSteps (loadState "kb".data (jsonEntries [nullSubstepFile]))
        (.str "nullsub".data) = .null ↔
      (getOperationInfo (loadState "kb".data (jsonEntries [nullSubstepFile]))
          (.str "nullsub".data) = none ∨
        ∃ fields defFields,
          getOperationInfo (loadState "kb".data (jsonEntries [nullSubstepFile]))
              (.str "nullsub".data) = some (.obj fields) ∧
            lookupStr fields defKey = some (.obj defFields) ∧
            lookupStr defFields substepKey = some .null)))
    ∧ getOperationSteps (loadState "kb".data (jsonEntries [noSubstepFile]))
        (.str "登录系统".data) = .arr [] :=
  ⟨(c10_amended_steps_null_characterisation "kb".data (.dir [nullSubstepFile])
      (loadState "kb".data (jsonEntries [nullSubstepFile]))
      (.str "nullsub".data) rfl).1,
   (c10_amended_steps_null_characterisation "kb".data (.dir [noSubstepFile])
      (loadState "kb".data (jsonEntries [noSubstepFile]))
      (.str "登录系统".data) rfl).2
     [(defKey, .obj [(idKey, .str "login".data), (operationKey, .str "登录系统".data)]),
      (filenameKey, .str "login.json".data),
      (filepathKey, .str "kb/login.json".data)]
     [(idKey, .str "login".data), (operationKey, .str "登录系统".data)]
     (by decide) (by decide) (by decide)⟩


/-! ## Claim C7: keyword search -/

/-- Python `needle in hay` on strings: substring containment (the empty needle
is contained in everything). -/
def strContains (hay needle : Str) : Bool :=
  if needle.isPrefixOf hay then true
  else
    match hay with
    | [] => false
    | _ :: t => strContains t needle

/-- Model of `str.lower()` (ASCII case mapping; CJK characters are unaffected). -/
def lowerS (s : Str) : Str := s.map Char.toLower

/-- Exceptions CPython would raise on records whose fields have unexpected
types; the loader never stores such shapes for the fields search touches, but
the functions are total over the model. -/
inductive PyErr where
  | attributeError
  | typeError
deriving DecidableEq, Repr

def asStr : Json → Option Str
  | .str s => some s
  | _ => none

/-- One search result: `{"operation_id": ..., "operation_name": ..., "data": ...}`. -/
structure SearchHit where
  operation_id : Json
  operation_name : Str
  data : Json
deriving DecidableEq, Repr

/-- The `for operation_id, operation_data in self.operations.items()` loop of
`search_related_operations`, with the accumulating `results` list.  Records
without a `"def"` key are skipped; the three `in`-tests short-circuit exactly
as the Python `or` does.  The `.error` arms model CPython raising
(`.lower()` on a non-string, a non-dict record or `"def"` value); no record
stored by `load` reaches them. -/
def searchGo (kwl : Str) : List (Json × Json) → List SearchHit → Except PyErr (List SearchHit)
  | [], acc => .ok acc
  | (oid, od) :: rest, acc =>
    match od with
    | .obj fields =>
      match lookupStr fields defKey with
      | none => searchGo kwl rest acc
      | some dv =>
        match dv with
        | .obj defFields =>
          match asStr (dGetD defFields operationKey (.str [])) with
          | none => .error .attributeError
          | some nm =>
            if strContains (lowerS nm) kwl then
              searchGo kwl rest (acc ++ [⟨oid, nm, od⟩])
            else
              match asStr (dGetD defFields contextKey (.str [])) with
              | none => .error .attributeError
              | some ctx =>
                if strContains (lowerS ctx) kwl then
                  searchGo kwl rest (acc ++ [⟨oid, nm, od⟩])
                else
                  match asStr (dGetD defFields sceneKey (.str [])) with
                  | none => .error .attributeError
                  | some sc =>
                    if strContains (lowerS sc) kwl then
                      searchGo kwl rest (acc ++ [⟨oid, nm, od⟩])
                    else searchGo kwl rest acc
        | _ => .error .attributeError
    | _ => .error .typeError

/-- Model of `search_related_operations`: lower the keyword once, then scan. -/
def searchRelatedOperations (st : KBState) (kw : Str) : Except PyErr (List SearchHit) :=
  searchGo (lowerS kw) st.operations []

/-- Well-typedness of one stored record for the search: a dict, whose `"def"`
value (when present) is a dict with string-or-absent name/context/scene. -/
def searchTypedB (od : Json) : Bool :=
  match od with
  | .obj fields =>
    match lookupStr fields defKey with
    | none => true
    | some (.obj defFields) =>
      (asStr (dGetD defFields operationKey (.str []))).isSome &&
        (asStr (dGetD defFields contextKey (.str []))).isSome &&
        (asStr (dGetD defFields sceneKey (.str []))).isSome
    | some _ => false
  | _ => false

def searchWellTypedB (st : KBState) : Bool :=
  st.operations.all (fun kv => searchTypedB kv.2)

/-- The definition block of a record (empty when absent or mis-shaped). -/
def specDefFields : Json → List (Str × Json)
  | .obj fields =>
    match lookupStr fields defKey with
    | some (.obj defFields) => defFields
    | _ => []
  | _ => []

/-- A definition-block field read as a string, defaulting to the empty string. -/
def specStrField (defFields : List (Str × Json)) (k : Str) : Str :=
  (asStr (dGetD defFields k (.str []))).getD []

/-- Spec-side match on an already-lowered keyword: the keyword occurs in the
lowered operation name, context, or scene of the record's definition block
(records without a definition block never match). -/
def matchesLowered (kwl : Str) (od : Json) : Bool :=
  match od with
  | .obj fields =>
    match lookupStr fields defKey with
    | some (.obj defFields) =>
      strContains (lowerS (specStrField defFields operationKey)) kwl ||
        strContains (lowerS (specStrField defFields contextKey)) kwl ||
        strContains (lowerS (specStrField defFields sceneKey)) kwl
    | _ => false
  | _ => false

/-- The record wrapped as a search hit, with its id and operation name. -/
def specHit (kv : Json × Json) : SearchHit :=
  ⟨kv.1, specStrField (specDefFields kv.2) operationKey, kv.2⟩

/-- Spec-side description of the search: exactly the records whose definition
block matches the keyword case-insensitively, wrapped with provenance, in
index order. -/
def searchSpec (st : KBState) (kw : Str) : List SearchHit :=
  (st.operations.filter (fun kv => matchesLowered (lowerS kw) kv.2)).map specHit

theorem searchGo_spec (kwl : Str) (l : List (Json × Json)) (acc : List SearchHit)
    (h : ∀ kv ∈ l, searchTypedB kv.2 = true) :
    searchGo kwl l acc =
      .ok (acc ++ (l.filter (fun kv => matchesLowered kwl kv.2)).map specHit) := by
  induction l generalizing acc with
  | nil => simp [searchGo]
  | cons kv rest ih =>
    obtain ⟨oid, od⟩ := kv
    have hhead : searchTypedB od = true := h (oid, od) (List.mem_cons_self _ _)
    have htail : ∀ kv2 ∈ rest, searchTypedB kv2.2 = true :=
      fun kv2 hkv2 => h kv2 (List.mem_cons_of_mem _ hkv2)
    cases od with
    | obj fields =>
      rcases hd : lookupStr fields defKey with _ | dv
      · have hm : matchesLowered kwl (Json.obj fields) = false := by
          simp [matchesLowered, hd]
        simp only [searchGo, hd, List.filter_cons, hm]
        rw [if_neg (by simp)]
        exact ih acc htail
      · rw [searchTypedB, hd] at hhead
        cases dv with
        | obj defFields =>
          have hh2 : ((asStr (dGetD defFields operationKey (Json.str []))).isSome &&
              (asStr (dGetD defFields contextKey (Json.str []))).isSome &&
              (asStr (dGetD defFields sceneKey (Json.str []))).isSome) = true := hhead
          rw [Bool.and_eq_true, Bool.and_eq_true] at hh2
          obtain ⟨⟨ha, hb⟩, hc⟩ := hh2
          obtain ⟨nm, hnm⟩ := Option.isSome_iff_exists.mp ha
          obtain ⟨ctx, hctx⟩ := Option.isSome_iff_exists.mp hb
          obtain ⟨sc, hsc⟩ := Option.isSome_iff_exists.mp hc
          have hmatch : matchesLowered kwl (Json.obj fields) =
              (strContains (lowerS nm) kwl || strContains (lowerS ctx) kwl ||
                strContains (lowerS sc) kwl) := by
            simp [matchesLowered, hd, specStrField, hnm, hctx, hsc]
          have hhit : specHit (oid, Json.obj fields) = ⟨oid, nm, Json.obj fields⟩ := by
            simp [specHit, specDefFields, hd, specStrField, hnm]
          simp only [searchGo, hd, hnm, hctx, hsc]
          by_cases b1 : strContains (lowerS nm) kwl = true
          · rw [if_pos b1]
            rw [ih _ htail]
            rw [List.filter_cons, hmatch]
            rw [if_pos (by simp [b1])]
            simp [hhit]
          · rw [if_neg b1]
            by_cases b2 : strContains (lowerS ctx) kwl = true
            · rw [if_pos b2]
              rw [ih _ htail]
              rw [List.filter_cons, hmatch]
              rw [if_pos (by simp [b2])]
              simp [hhit]
            · rw [if_neg b2]
              by_cases b3 : strContains (lowerS sc) kwl = true
              · rw [if_pos b3]
                rw [ih _ htail]
                rw [List.filter_cons, hmatch]
                rw [if_pos (by simp [b3])]
                simp [hhit]
              · rw [if_neg b3]
                rw [ih _ htail]
                rw [List.filter_cons, hmatch]
                rw [if_neg (by simp [b1, b2, b3])]
        | null => simp at hhead
        | bool b => simp at hhead
        | num n => simp at hhead
        | str s => simp at hhead
        | arr xs => simp at hhead
    | null => simp [searchTypedB] at hhead
    | bool b => simp [searchTypedB] at hhead
    | num n => simp [searchTypedB] at hhead
    | str s => simp [searchTypedB] at hhead
    | arr xs => simp [searchTypedB] at hhead

def exampleLoginFile : JsonFile :=
  ⟨"登录.json".data, some (.obj [(defKey, .obj
    [(idKey, .str "login".data), (operationKey, .str "登录系统".data),
     (contextKey, .str []), (sceneKey, .str [])])])⟩

def exampleTaskFile : JsonFile :=
  ⟨"任务.json".data, some (.obj [(defKey, .obj
    [(idKey, .str "task".data), (operationKey, .str "创建新任务".data),
     (contextKey, .str []), (sceneKey, .str [])])])⟩

/-- The document stored for `exampleTaskFile` after loading from `"kb"`. -/
def exampleTaskData : Json :=
  .obj [(defKey, .obj
      [(idKey, .str "task".data), (operationKey, .str "创建新任务".data),
       (contextKey, .str []), (sceneKey, .str [])]),
    (filenameKey, .str "任务.json".data),
    (filepathKey, .str "kb/任务.json".data)]

/-- C7: on a well-typed knowledge base the keyword search returns exactly the
records whose definition-block operation name, context, or scene contains the
keyword as a case-insensitive substring, each wrapped with its id and
operation name, in index order; in particular a base holding operations
`登录系统` and `创建新任务` searched for `任务` yields exactly the `创建新任务`
record. -/
theorem c7_keyword_search :
    (∀ (st : KBState) (kw : Str), searchWellTypedB st = true →
      searchRelatedOperations st kw = .ok (searchSpec st kw))
    ∧ (∃ st, kbInit "kb".data (.dir [exampleLoginFile, exampleTaskFile]) = .ok st ∧
        searchRelatedOperations st "任务".data =
          .ok [⟨.str "task".data, "创建新任务".data, exampleTaskData⟩]) := by
  constructor
  · intro st kw htyped
    rw [searchRelatedOperations, searchSpec]
    have hall : ∀ kv ∈ st.operations, searchTypedB kv.2 = true := by
      rw [searchWellTypedB, List.all_eq_true] at htyped
      exact htyped
    rw [searchGo_spec (lowerS kw) st.operations [] hall]
    rw [List.nil_append]
  · exact ⟨_, rfl, rfl⟩

/-- Witness for C7's general part: the loaded two-record base is well-typed
and the search equation holds on it. -/
theorem c7_keyword_search_witness :
    searchRelatedOperations
        (loadState "kb".data (jsonEntries [exampleLoginFile, exampleTaskFile]))
        "任务".data =
      .ok (searchSpec
        (loadState "kb".data (jsonEntries [exampleLoginFile, exampleTaskFile]))
        "任务".data) :=
  c7_keyword_search.1
    (loadState "kb".data (jsonEntries [exampleLoginFile, exampleTaskFile]))
    "任务".data (by decide)


/-! ## Claim C8: context summary assembly and truncation -/

/-- Rendering of a field value by the f-strings of `get_context`.  Exact for
the scalar JSON types (`str`, `int`, `bool`, `None`); container values — which
CPython renders through `repr`, quoting nested strings — are outside this
model and yield `none`, so no theorem here asserts anything about their
rendering. -/
def renderScalar : Json → Option Str
  | .str s => some s
  | .num n => some (toString n).data
  | .bool true => some "True".data
  | .bool false => some "False".data
  | .null => some "None".data
  | .arr _ => none
  | .obj _ => none

/-- Model of `substeps[:3]`: a list yields its first three elements, a string
yields its first three characters (each a one-character string, which the
preview loop then skips as a non-dict), and every other type raises
`TypeError` in CPython. -/
def pySlice3 : Json → Except PyErr (List Json)
  | .arr xs => .ok (xs.take 3)
  | .str s => .ok ((s.take 3).map (fun c => Json.str [c]))
  | _ => .error .typeError

/-- Ways the modelled `get_context` can fail to produce a string: CPython
raises, or a container value reaches an f-string and its rendering is outside
this model. -/
inductive CtxErr where
  | raised (e : PyErr)
  | unmodelledRendering
deriving DecidableEq, Repr

/-- The `steps_preview` accumulation loop: one `"  - <description>"` line per
dict step with a truthy description, in order. -/
def previewFold : List Json → List Str → Except CtxErr (List Str)
  | [], acc => .ok acc
  | step :: rest, acc =>
    match step with
    | .obj sfs =>
      if pyTruthy (dGetD sfs descriptionKey (.str [])) then
        match renderScalar (dGetD sfs descriptionKey (.str [])) with
        | some d => previewFold rest (acc ++ ["  - ".data ++ d])
        | none => .error .unmodelledRendering
      else previewFold rest acc
    | _ => previewFold rest acc

/-- The optional `"\n上下文: ..."` segment of a block. -/
def ctxSegment (defFields : List (Str × Json)) : Except CtxErr Str :=
  if pyTruthy (dGetD defFields contextKey (.str [])) then
    match renderScalar (dGetD defFields contextKey (.str [])) with
    | some c => .ok ("\n上下文: ".data ++ c)
    | none => .error .unmodelledRendering
  else .ok []

/-- The optional `"\n步骤预览:..."` segment of a block: only a truthy substep
value is sliced (so a falsy non-list never raises), and the segment is added
only when at least one preview line resulted. -/
def previewSegment (defFields : List (Str × Json)) : Except CtxErr Str :=
  if pyTruthy (dGetD defFields substepKey (.arr [])) then
    match pySlice3 (dGetD defFields substepKey (.arr [])) with
    | .error e => .error (.raised e)
    | .ok steps =>
      match previewFold steps [] with
      | .error e => .error e
      | .ok pv =>
        .ok (if pv ≠ [] then "\n步骤预览:\n".data ++ joinWith ['\n'] pv else [])
  else .ok []

/-- One `context_item` block: the operation name is rendered first (as in the
source's f-string), then the context segment, then the step preview. -/
def contextItemE (defFields : List (Str × Json)) : Except CtxErr Str :=
  match renderScalar (dGetD defFields operationKey (.str [])) with
  | none => .error .unmodelledRendering
  | some nm =>
    match ctxSegment defFields with
    | .error e => .error e
    | .ok seg1 =>
      match previewSegment defFields with
      | .error e => .error e
      | .ok seg2 => .ok ("操作: ".data ++ nm ++ seg1 ++ seg2)

/-- The `context_parts` accumulation loop over the first ten documents:
records without a `"def"` key are skipped.  (The `.raised` arms for a non-dict
record or a non-dict `"def"` value model branches where CPython raises;
documents stored by `load` never reach them.) -/
def contextPartsE : List Json → List Str → Except CtxErr (List Str)
  | [], acc => .ok acc
  | od :: rest, acc =>
    match od with
    | .obj fields =>
      match lookupStr fields defKey with
      | none => contextPartsE rest acc
      | some dv =>
        match dv with
        | .obj defFields =>
          match contextItemE defFields with
          | .error e => .error e
          | .ok item => contextPartsE rest (acc ++ [item])
        | _ => .error (.raised .attributeError)
    | _ => .error (.raised .typeError)

/-- Model of `get_context`: blank-line-join the blocks of the first ten
documents and hard-truncate to `max_length` characters plus an ellipsis when
longer. -/
def getContext (st : KBState) (maxLength : Nat) : Except CtxErr Str :=
  match contextPartsE ((st.operations.map Prod.snd).take 10) [] with
  | .error e => .error e
  | .ok parts =>
    .ok (if maxLength < (joinWith "\n\n".data parts).length then
        (joinWith "\n\n".data parts).take maxLength ++ "...".data
      else joinWith "\n\n".data parts)

/-- The substep array of a well-typed definition block (spec-side view; the
typing hypotheses below restrict substep values to arrays or absence). -/
def stepsOf : Json → List Json
  | .arr xs => xs
  | _ => []

/-- Spec-side preview: the first three substeps filtered to dict steps with
truthy descriptions. -/
def previewSpec (steps : List Json) : List Str :=
  steps.filterMap (fun step =>
    match step with
    | .obj sfs =>
      if pyTruthy (dGetD sfs descriptionKey (.str [])) then
        some ("  - ".data ++ specStrField sfs descriptionKey)
      else none
    | _ => none)

/-- Spec-side block text: operation-name line, context line when the context
is truthy, and the preview of the first three steps when it is non-empty (the
source's truthiness pre-check on the substep value is dropped: a falsy value
has no preview lines anyway). -/
def contextItemSpec (defFields : List (Str × Json)) : Str :=
  "操作: ".data ++ specStrField defFields operationKey
    ++ (if pyTruthy (dGetD defFields contextKey (.str [])) then
          "\n上下文: ".data ++ specStrField defFields contextKey
        else [])
    ++ (if previewSpec ((stepsOf (dGetD defFields substepKey (.arr []))).take 3) ≠ [] then
          "\n步骤预览:\n".data ++
            joinWith ['\n']
              (previewSpec ((stepsOf (dGetD defFields substepKey (.arr []))).take 3))
        else [])

/-- Spec-side block of one record: emitted exactly for the records with a
dict-typed definition block. -/
def blockSpec : Json → Option Str
  | .obj fields =>
    match lookupStr fields defKey with
    | none => none
    | some (.obj defFields) => some (contextItemSpec defFields)
    | some _ => none
  | _ => none

/-- Spec-side assembled summary text: blocks of at most the first ten loaded
documents, blank-line separated. -/
def assembleSpec (st : KBState) : Str :=
  joinWith "\n\n".data (((st.operations.map Prod.snd).take 10).filterMap blockSpec)

/-- Typing of one substep entry: a dict step must carry a string-or-absent
description (so its rendering is inside the model); non-dict steps are
skipped by the loop and may have any shape. -/
def stepTypedB : Json → Bool
  | .obj sfs => (asStr (dGetD sfs descriptionKey (.str []))).isSome
  | _ => true

/-- Typing of a definition block's substep value: absent or an array of typed
steps (anything else would raise in `substeps[:3]` or is outside the model). -/
def substepTypedB (defFields : List (Str × Json)) : Bool :=
  match lookupStr defFields substepKey with
  | none => true
  | some (.arr steps) => steps.all stepTypedB
  | some _ => false

/-- Well-typedness of one stored record for `get_context`: a dict whose
`"def"` value (when present) is a dict with string-or-absent name and context
and a typed substep value. -/
def contextRecordTypedB : Json → Bool
  | .obj fields =>
    match lookupStr fields defKey with
    | none => true
    | some (.obj defFields) =>
      (asStr (dGetD defFields operationKey (.str []))).isSome &&
        (asStr (dGetD defFields contextKey (.str []))).isSome &&
        substepTypedB defFields
    | some _ => false
  | _ => false

def contextTypedB (st : KBState) : Bool :=
  st.operations.all (fun kv => contextRecordTypedB kv.2)

theorem asStr_eq_some {v : Json} {s : Str} (h : asStr v = some s) : v = .str s := by
  cases v with
  | str s2 =>
    injection h with h2
    rw [h2]
  | null => cases h
  | bool b => cases h
  | num n => cases h
  | arr xs => cases h
  | obj fs => cases h

theorem previewFold_spec (steps : List Json) (acc : List Str)
    (h : ∀ s ∈ steps, stepTypedB s = true) :
    previewFold steps acc = .ok (acc ++ previewSpec steps) := by
  induction steps generalizing acc with
  | nil => simp [previewFold, previewSpec]
  | cons step rest ih =>
    have hh : stepTypedB step = true := h step (List.mem_cons_self step rest)
    have ht : ∀ s ∈ rest, stepTypedB s = true :=
      fun s hs => h s (List.mem_cons_of_mem step hs)
    cases step with
    | obj sfs =>
      have hh2 : (asStr (dGetD sfs descriptionKey (.str []))).isSome = true := hh
      obtain ⟨d, hds⟩ := Option.isSome_iff_exists.mp hh2
      have hv := asStr_eq_some hds
      simp only [previewFold, hv, renderScalar]
      by_cases hd : pyTruthy (Json.str d) = true
      · rw [if_pos hd, ih _ ht]
        simp [previewSpec, hv, hd, specStrField, asStr]
      · rw [if_neg hd, ih _ ht]
        simp [previewSpec, hv, hd]
    | null =>
      simp only [previewFold]
      rw [ih _ ht]
      simp [previewSpec]
    | bool b =>
      simp only [previewFold]
      rw [ih _ ht]
      simp [previewSpec]
    | num n =>
      simp only [previewFold]
      rw [ih _ ht]
      simp [previewSpec]
    | str s =>
      simp only [previewFold]
      rw [ih _ ht]
      simp [previewSpec]
    | arr xs =>
      simp only [previewFold]
      rw [ih _ ht]
      simp [previewSpec]

theorem previewSpec_nil_of_falsy (v : Json) (h : pyTruthy v = false) :
    previewSpec ((stepsOf v).take 3) = [] := by
  cases v with
  | arr xs =>
    cases xs with
    | nil => rfl
    | cons x t =>
      rw [pyTruthy] at h
      simp at h
  | null => rfl
  | bool b => rfl
  | num n => rfl
  | str s => rfl
  | obj fs => rfl

theorem ctxSegment_spec (defFields : List (Str × Json))
    (hctx : (asStr (dGetD defFields contextKey (.str []))).isSome = true) :
    ctxSegment defFields =
      .ok (if pyTruthy (dGetD defFields contextKey (.str [])) then
        "\n上下文: ".data ++ specStrField defFields contextKey else []) := by
  obtain ⟨cx, hcx⟩ := Option.isSome_iff_exists.mp hctx
  have hv := asStr_eq_some hcx
  rw [ctxSegment, hv]
  by_cases ht : pyTruthy (Json.str cx) = true
  · rw [if_pos ht, if_pos ht]
    simp [renderScalar, specStrField, hv, asStr]
  · rw [if_neg ht, if_neg ht]

theorem previewSegment_spec (defFields : List (Str × Json))
    (hsubt : substepTypedB defFields = true) :
    previewSegment defFields =
      .ok (if previewSpec ((stepsOf (dGetD defFields substepKey (.arr []))).take 3) ≠ []
        then
          "\n步骤预览:\n".data ++
            joinWith ['\n']
              (previewSpec ((stepsOf (dGetD defFields substepKey (.arr []))).take 3))
        else []) := by
  rw [substepTypedB] at hsubt
  rcases hl : lookupStr defFields substepKey with _ | v
  · have hv : dGetD defFields substepKey (.arr []) = .arr [] := by
      rw [dGetD, hl]
    rw [previewSegment, hv]
    simp [pyTruthy, stepsOf, previewSpec]
  · rw [hl] at hsubt
    cases v with
    | arr steps =>
      have hv : dGetD defFields substepKey (.arr []) = .arr steps := by
        rw [dGetD, hl]
      rw [previewSegment, hv]
      by_cases ht : pyTruthy (Json.arr steps) = true
      · rw [if_pos ht]
        have hall : ∀ s ∈ steps.take 3, stepTypedB s = true := by
          intro s hs
          exact List.all_eq_true.mp hsubt s (List.take_subset 3 steps hs)
        have hpf := previewFold_spec (steps.take 3) [] hall
        simp [pySlice3, hpf, stepsOf]
      · rw [if_neg ht]
        have hsnil : steps = [] := by
          cases steps with
          | nil => rfl
          | cons x t =>
            exact absurd rfl ht
        subst hsnil
        simp [stepsOf, previewSpec]
    | null => cases hsubt
    | bool b => cases hsubt
    | num n => cases hsubt
    | str s => cases hsubt
    | obj fs => cases hsubt

theorem contextItemE_spec (defFields : List (Str × Json))
    (hname : (asStr (dGetD defFields operationKey (.str []))).isSome = true)
    (hctx : (asStr (dGetD defFields contextKey (.str []))).isSome = true)
    (hsubt : substepTypedB defFields = true) :
    contextItemE defFields = .ok (contextItemSpec defFields) := by
  obtain ⟨nm, hnm⟩ := Option.isSome_iff_exists.mp hname
  have hv := asStr_eq_some hnm
  rw [contextItemE, hv]
  rw [show renderScalar (Json.str nm) = some nm from rfl]
  rw [ctxSegment_spec defFields hctx, previewSegment_spec defFields hsubt]
  rw [contextItemSpec]
  simp [specStrField, hv, asStr]

theorem contextPartsE_spec (vals : List Json) (acc : List Str)
    (h : ∀ od ∈ vals, contextRecordTypedB od = true) :
    contextPartsE vals acc = .ok (acc ++ vals.filterMap blockSpec) := by
  induction vals generalizing acc with
  | nil => simp [contextPartsE]
  | cons od rest ih =>
    have hh : contextRecordTypedB od = true := h od (List.mem_cons_self od rest)
    have ht : ∀ od2 ∈ rest, contextRecordTypedB od2 = true :=
      fun od2 hod2 => h od2 (List.mem_cons_of_mem od hod2)
    cases od with
    | obj fields =>
      rcases hd : lookupStr fields defKey with _ | dv
      · simp only [contextPartsE, hd]
        rw [ih _ ht]
        simp [blockSpec, hd]
      · have hh2 : (match lookupStr fields defKey with
            | none => true
            | some (.obj defFields) =>
              (asStr (dGetD defFields operationKey (.str []))).isSome &&
                (asStr (dGetD defFields contextKey (.str []))).isSome &&
                substepTypedB defFields
            | some _ => false) = true := hh
        rw [hd] at hh2
        cases dv with
        | obj defFields =>
          have hh3 : ((asStr (dGetD defFields operationKey (.str []))).isSome &&
              (asStr (dGetD defFields contextKey (.str []))).isSome &&
              substepTypedB defFields) = true := hh2
          rw [Bool.and_eq_true, Bool.and_eq_true] at hh3
          obtain ⟨⟨ha, hb⟩, hc⟩ := hh3
          have hci := contextItemE_spec defFields ha hb hc
          simp only [contextPartsE, hd, hci]
          rw [ih _ ht]
          simp [blockSpec, hd]
        | null => cases hh2
        | bool b => cases hh2
        | num n => cases hh2
        | str s => cases hh2
        | arr xs => cases hh2
    | null => cases hh
    | bool b => cases hh
    | num n => cases hh
    | str s => cases hh
    | arr xs => cases hh

/-- C8: on a well-typed knowledge base the summary is assembled from at most
the first ten loaded documents (at most the first three step descriptions
each, blank-line-separated blocks); when the assembled text fits in
`max_length` it is returned unchanged, and when it is longer the result is
its first `max_length` characters followed by the ellipsis marker `"..."`. -/
theorem c8_context_truncation (st : KBState) (maxLength : Nat)
    (htyped : contextTypedB st = true) :
    ((assembleSpec st).length ≤ maxLength →
      getContext st maxLength = .ok (assembleSpec st))
    ∧ (maxLength < (assembleSpec st).length →
        getContext st maxLength =
          .ok ((assembleSpec st).take maxLength ++ "...".data)) := by
  have hvals : ∀ od ∈ (st.operations.map Prod.snd).take 10,
      contextRecordTypedB od = true := by
    intro od hod
    have hmem : od ∈ st.operations.map Prod.snd :=
      List.take_subset 10 (st.operations.map Prod.snd) hod
    obtain ⟨kv, hkv, hsnd⟩ := List.mem_map.mp hmem
    rw [← hsnd]
    exact List.all_eq_true.mp htyped kv hkv
  have hparts := contextPartsE_spec ((st.operations.map Prod.snd).take 10) [] hvals
  rw [List.nil_append] at hparts
  have hjoin : joinWith "\n\n".data
      (((st.operations.map Prod.snd).take 10).filterMap blockSpec) = assembleSpec st := by
    rw [assembleSpec]
  constructor
  · intro hle
    simp only [getContext, hparts]
    rw [hjoin, if_neg (Nat.not_lt.mpr hle)]
  · intro hlt
    simp only [getContext, hparts]
    rw [hjoin, if_pos hlt]

/-- Witness for C8: the loaded two-record example base is well-typed, in both
the fitting and the truncating case. -/
theorem c8_context_truncation_witness :
    (getContext (loadState "kb".data (jsonEntries [exampleLoginFile, exampleTaskFile])) 2000 =
      .ok (assembleSpec (loadState "kb".data (jsonEntries [exampleLoginFile, exampleTaskFile]))))
    ∧ (getContext (loadState "kb".data (jsonEntries [exampleLoginFile, exampleTaskFile])) 5 =
        .ok ((assembleSpec
          (loadState "kb".data (jsonEntries [exampleLoginFile, exampleTaskFile]))).take 5
          ++ "...".data)) :=
  ⟨(c8_context_truncation
      (loadState "kb".data (jsonEntries [exampleLoginFile, exampleTaskFile])) 2000
      (by decide)).1 (by decide),
   (c8_context_truncation
      (loadState "kb".data (jsonEntries [exampleLoginFile, exampleTaskFile])) 5
      (by decide)).2 (by decide)⟩
